import Mathlib

/-!
Verification development for the lite-ci schema-driven planner engine.

The definitions below are a shallow embedding of the compile pipeline:
loader pairing of `job.yaml` / `schema.yaml` files, intent normalization,
environment × component expansion with hierarchical merging and template
interpolation, job binding with step template rendering, dependency
resolution, cycle detection, Kahn topological sorting and plan rendering.

Go maps are embedded as association lists with first-match lookup and
replace-or-append insertion; wherever Go iterates a map and the iteration
order is observable in the result, the embedding takes the iteration
order as an explicit list parameter (Go's map iteration order is
unspecified and randomized, so any permutation of the keys is a legal
order).  Go `interface` values are embedded as the closed sum `Value`
of the shapes the pipeline manipulates (strings, integers, booleans and
one level of string-valued nested maps); non-string values flow through
the merge and interpolation stages unchanged, exactly as in the source.
-/

deriving instance DecidableEq for Except

namespace LiteCI

/-- Dynamic values carried in `inputs`, `defaults` and `policies` maps. -/
inductive Value where
  | str (s : String)
  | int (n : Int)
  | bool (b : Bool)
  | strMap (m : List (String × String))
deriving DecidableEq, Repr

/-- Association list standing for a Go `map[string]T`. -/
abbrev AList (α : Type) := List (String × α)

/-- Lookup of a key, first match wins (maps never hold duplicate keys). -/
def lookupA {α : Type} : AList α → String → Option α
  | [], _ => none
  | (k, v) :: rest, key => if k = key then some v else lookupA rest key

/-- Go `m[k] = v`: replace the entry when present, append otherwise. -/
def insertA {α : Type} : AList α → String → α → AList α
  | [], key, val => [(key, val)]
  | (k, v) :: rest, key, val =>
    if k = key then (k, val) :: rest else (k, v) :: insertA rest key val

/-- Go `delete(m, k)`: drop the entry for the key. -/
def eraseA {α : Type} : AList α → String → AList α
  | [], _ => []
  | (k, v) :: rest, key => if k = key then eraseA rest key else (k, v) :: eraseA rest key

/-- Keys of a map in storage order. -/
def keysA {α : Type} (m : AList α) : List String := m.map Prod.fst

/-- Modify the value stored at a key, leaving the map unchanged when absent. -/
def updateA {α : Type} : AList α → String → (α → α) → AList α
  | [], _, _ => []
  | (k, v) :: rest, key, f =>
    if k = key then (k, f v) :: rest else (k, v) :: updateA rest key f

/-- Write every entry of `entries` into `base` in order (a Go merge loop). -/
def insertAllA {α : Type} (base : AList α) (entries : AList α) : AList α :=
  entries.foldl (fun acc kv => insertA acc kv.1 kv.2) base

theorem lookupA_insertA {α : Type} (m : AList α) (k k' : String) (v : α) :
    lookupA (insertA m k v) k' = if k = k' then some v else lookupA m k' := by
  induction m with
  | nil => simp [insertA, lookupA]
  | cons hd tl ih =>
    obtain ⟨k₀, v₀⟩ := hd
    simp only [insertA]
    by_cases h₀ : k₀ = k
    · subst h₀
      simp only [if_pos rfl, lookupA]
      by_cases h₁ : k₀ = k' <;> simp [h₁]
    · simp only [if_neg h₀, lookupA]
      by_cases h₁ : k₀ = k'
      · subst h₁
        have hkk : ¬ (k = k₀) := fun h => h₀ h.symm
        simp [hkk]
      · simp [h₁, ih]

theorem lookupA_eq_none {α : Type} (m : AList α) (k : String) (h : k ∉ keysA m) :
    lookupA m k = none := by
  induction m with
  | nil => rfl
  | cons hd tl ih =>
    obtain ⟨k₀, v₀⟩ := hd
    simp only [keysA, List.map_cons, List.mem_cons, not_or] at h
    simp only [lookupA]
    rw [if_neg (fun hh => h.1 hh.symm)]
    exact ih h.2

theorem lookupA_insertAllA {α : Type} (base entries : AList α) (k : String)
    (hnd : (keysA entries).Nodup) :
    lookupA (insertAllA base entries) k =
      (lookupA entries k).orElse (fun _ => lookupA base k) := by
  induction entries generalizing base with
  | nil => simp [insertAllA, lookupA, Option.orElse]
  | cons hd tl ih =>
    obtain ⟨k₀, v₀⟩ := hd
    have hstep : insertAllA base ((k₀, v₀) :: tl) = insertAllA (insertA base k₀ v₀) tl := rfl
    rw [hstep]
    simp only [keysA, List.map_cons, List.nodup_cons] at hnd
    rw [ih (insertA base k₀ v₀) hnd.2]
    by_cases hk : k₀ = k
    · subst hk
      have hnone : lookupA tl k₀ = none := lookupA_eq_none tl k₀ hnd.1
      simp [hnone, lookupA, lookupA_insertA, Option.orElse]
    · simp only [lookupA, if_neg hk, lookupA_insertA]

/-- Check whether `pat` is an initial segment of `s`. -/
def startsWithL : List Char → List Char → Bool
  | [], _ => true
  | _ :: _, [] => false
  | p :: ps, c :: s => p = c && startsWithL ps s

/-- Fuelled scan of Go `strings.ReplaceAll(s, pat, repl)`: replace
non-overlapping leftmost occurrences, continuing the scan after each
replacement.  The fuel only bounds the recursion; `replaceAllL` feeds it
the input length, which always suffices. -/
def replaceAllGo (pat repl : List Char) : Nat → List Char → List Char
  | _, [] => []
  | 0, s => s
  | fuel + 1, c :: rest =>
    if pat ≠ [] ∧ startsWithL pat (c :: rest) = true then
      repl ++ replaceAllGo pat repl fuel (rest.drop (pat.length - 1))
    else
      c :: replaceAllGo pat repl fuel rest

/-- Go `strings.ReplaceAll(s, pat, repl)`. -/
def replaceAllL (pat repl s : List Char) : List Char := replaceAllGo pat repl s.length s

/-- Scan for the first `\x7d\x7d` close delimiter before any newline; return
the characters after it.  This follows the RE2 semantics of the source's
`\x7b\x7b.*?\x7d\x7d` pattern, whose dot does not match a newline. -/
def splitCloseNoNL : List Char → Option (List Char)
  | [] => none
  | c :: rest =>
    if c = '}' ∧ rest.head? = some '}' then some rest.tail
    else if c = '\n' then none
    else splitCloseNoNL rest

theorem splitCloseNoNL_le (l : List Char) (r : List Char)
    (h : splitCloseNoNL l = some r) : r.length ≤ l.length := by
  induction l with
  | nil => simp [splitCloseNoNL] at h
  | cons c rest ih =>
    simp only [splitCloseNoNL] at h
    by_cases h1 : c = '}' ∧ rest.head? = some '}'
    · rw [if_pos h1] at h
      cases h
      calc rest.tail.length ≤ rest.length := by
            cases rest <;> simp
        _ ≤ (c :: rest).length := by simp
    · rw [if_neg h1] at h
      by_cases h2 : c = '\n'
      · rw [if_pos h2] at h; cases h
      · rw [if_neg h2] at h
        exact Nat.le_succ_of_le (ih h)

/-- Is there a `\x7d\x7d` close before the first newline? -/
def closableL : List Char → Bool
  | [] => false
  | c :: rest =>
    if c = '}' ∧ rest.head? = some '}' then true
    else if c = '\n' then false
    else closableL rest

/-- Fuelled scan of Go `regexp.ReplaceAllString` with the pattern
`\x7b\x7b.*?\x7d\x7d` and an empty replacement: delete each leftmost match
(a `\x7b\x7b`, a minimal run of non-newline characters, a `\x7d\x7d`) and
rescan after it; when an open delimiter cannot be closed before a newline,
the scan restarts one character later. -/
def stripGo : Nat → List Char → List Char
  | _, [] => []
  | 0, l => l
  | fuel + 1, c :: rest =>
    if c = '{' ∧ rest.head? = some '{' then
      match splitCloseNoNL rest.tail with
      | some rest2 => stripGo fuel rest2
      | none => c :: stripGo fuel rest
    else
      c :: stripGo fuel rest

/-- Strip every `\x7b\x7b.*?\x7d\x7d` match from the list. -/
def stripL (l : List Char) : List Char := stripGo l.length l

/-- Does the list contain a substring matchable by `\x7b\x7b.*?\x7d\x7d`
(an open delimiter with a close delimiter after it on the same line)? -/
def hasResidualL : List Char → Bool
  | [] => false
  | c :: rest =>
    if c = '{' ∧ rest.head? = some '{' then
      closableL rest.tail || hasResidualL rest
    else
      hasResidualL rest

theorem splitCloseNoNL_cons (c : Char) (rest : List Char)
    (h1 : ¬(c = '}' ∧ rest.head? = some '}')) (h2 : c ≠ '\n') :
    splitCloseNoNL (c :: rest) = splitCloseNoNL rest := by
  simp [splitCloseNoNL, h1, h2]

theorem stripGo_nil (fuel : Nat) : stripGo fuel [] = [] := by
  cases fuel <;> rfl

theorem stripGo_zero (l : List Char) : stripGo 0 l = l := by
  cases l <;> rfl

theorem stripGo_cons (fuel : Nat) (c : Char) (rest : List Char)
    (hc : ¬(c = '{' ∧ rest.head? = some '{')) :
    stripGo (fuel + 1) (c :: rest) = c :: stripGo fuel rest := by
  simp only [stripGo, if_neg hc]

theorem stripGo_open_none (fuel : Nat) (c : Char) (rest : List Char)
    (hc : c = '{' ∧ rest.head? = some '{') (h : splitCloseNoNL rest.tail = none) :
    stripGo (fuel + 1) (c :: rest) = c :: stripGo fuel rest := by
  simp only [stripGo, if_pos hc, h]

theorem stripGo_open_some (fuel : Nat) (c : Char) (rest rest2 : List Char)
    (hc : c = '{' ∧ rest.head? = some '{') (h : splitCloseNoNL rest.tail = some rest2) :
    stripGo (fuel + 1) (c :: rest) = stripGo fuel rest2 := by
  simp only [stripGo, if_pos hc, h]

theorem head_eq_open (rest : List Char) (hc2 : rest.head? = some '{') :
    ∃ rt, rest = '{' :: rt := by
  cases rest with
  | nil => simp at hc2
  | cons d rt =>
    simp only [List.head?_cons, Option.some.injEq] at hc2
    exact ⟨rt, by rw [hc2]⟩

theorem splitCloseNoNL_open_cons (rt : List Char) :
    splitCloseNoNL ('{' :: rt) = splitCloseNoNL rt := by
  refine splitCloseNoNL_cons '{' rt ?_ (by decide)
  intro hcon; exact absurd hcon.1 (by decide)

theorem stripGo_head_none (fuel : Nat) (l : List Char) (h : splitCloseNoNL l = none) :
    (stripGo fuel l).head? = l.head? := by
  cases fuel with
  | zero => rw [stripGo_zero]
  | succ fuel =>
    cases l with
    | nil => rw [stripGo_nil]
    | cons c rest =>
      by_cases hc : c = '{' ∧ rest.head? = some '{'
      · obtain ⟨rt, hrt⟩ := head_eq_open rest hc.2
        have hrest : splitCloseNoNL rest = none := by
          rw [hc.1, hrt] at h
          rw [hrt, ← splitCloseNoNL_open_cons ('{' :: rt)]
          exact h
        have htail : splitCloseNoNL rest.tail = none := by
          rw [hrt] at hrest ⊢
          rw [List.tail_cons, ← splitCloseNoNL_open_cons rt]
          exact hrest
        rw [stripGo_open_none fuel c rest hc htail]
        simp
      · rw [stripGo_cons fuel c rest hc]
        simp

theorem stripGo_head_notbrace (fuel : Nat) (l : List Char) (h : l.head? ≠ some '{') :
    (stripGo fuel l).head? = l.head? := by
  cases fuel with
  | zero => rw [stripGo_zero]
  | succ fuel =>
    cases l with
    | nil => rw [stripGo_nil]
    | cons c rest =>
      have hc : ¬(c = '{' ∧ rest.head? = some '{') := by
        intro hcon
        exact h (by simp [hcon.1])
      rw [stripGo_cons fuel c rest hc]
      simp

theorem closableL_cons (c : Char) (rest : List Char) :
    closableL (c :: rest) =
      if c = '}' ∧ rest.head? = some '}' then true
      else if c = '\n' then false
      else closableL rest := rfl

theorem hasResidualL_cons (c : Char) (rest : List Char) :
    hasResidualL (c :: rest) =
      if c = '{' ∧ rest.head? = some '{' then closableL rest.tail || hasResidualL rest
      else hasResidualL rest := rfl

theorem closableL_stripGo (fuel : Nat) (l : List Char) (hf : l.length ≤ fuel)
    (h : splitCloseNoNL l = none) : closableL (stripGo fuel l) = false := by
  induction fuel generalizing l with
  | zero =>
    have : l = [] := List.eq_nil_of_length_eq_zero (Nat.le_zero.mp hf)
    subst this; rfl
  | succ fuel ih =>
    cases l with
    | nil => rw [stripGo_nil]; rfl
    | cons c rest =>
      have hf' : rest.length ≤ fuel := by
        simp only [List.length_cons] at hf; omega
      by_cases hc : c = '{' ∧ rest.head? = some '{'
      · obtain ⟨rt, hrt⟩ := head_eq_open rest hc.2
        have hrest : splitCloseNoNL rest = none := by
          rw [hc.1] at h
          rw [← splitCloseNoNL_open_cons rest]
          exact h
        have htail : splitCloseNoNL rest.tail = none := by
          rw [hrt] at hrest ⊢
          rw [List.tail_cons, ← splitCloseNoNL_open_cons rt]
          exact hrest
        rw [stripGo_open_none fuel c rest hc htail]
        have h1 : ¬(c = '}' ∧ (stripGo fuel rest).head? = some '}') := by
          intro hcon; rw [hc.1] at hcon; exact absurd hcon.1 (by decide)
        have h2 : ¬(c = '\n') := by rw [hc.1]; decide
        rw [closableL_cons, if_neg h1, if_neg h2]
        exact ih rest hf' hrest
      · by_cases hclose : c = '}' ∧ rest.head? = some '}'
        · exfalso
          simp [splitCloseNoNL, hclose] at h
        · by_cases hnl : c = '\n'
          · rw [stripGo_cons fuel c rest hc]
            have h1 : ¬(c = '}' ∧ (stripGo fuel rest).head? = some '}') := by
              intro hcon; rw [hnl] at hcon; exact absurd hcon.1 (by decide)
            rw [closableL_cons, if_neg h1, if_pos hnl]
          · have hrest : splitCloseNoNL rest = none := by
              rw [← splitCloseNoNL_cons c rest hclose hnl]
              exact h
            rw [stripGo_cons fuel c rest hc]
            have hhd : (stripGo fuel rest).head? = rest.head? :=
              stripGo_head_none fuel rest hrest
            have h1 : ¬(c = '}' ∧ (stripGo fuel rest).head? = some '}') := by
              intro hcon
              exact hclose (And.intro hcon.1 (hhd ▸ hcon.2))
            rw [closableL_cons, if_neg h1, if_neg hnl]
            exact ih rest hf' hrest

/-- Closure of the strip pass: its output never contains a substring
matchable by `\x7b\x7b.*?\x7d\x7d` again. -/
theorem hasResidualL_stripGo (fuel : Nat) (l : List Char) (hf : l.length ≤ fuel) :
    hasResidualL (stripGo fuel l) = false := by
  induction fuel generalizing l with
  | zero =>
    have : l = [] := List.eq_nil_of_length_eq_zero (Nat.le_zero.mp hf)
    subst this; rfl
  | succ fuel ih =>
    cases l with
    | nil => rw [stripGo_nil]; rfl
    | cons c rest =>
      have hf' : rest.length ≤ fuel := by
        simp only [List.length_cons] at hf; omega
      by_cases hc : c = '{' ∧ rest.head? = some '{'
      · obtain ⟨rt, hrt⟩ := head_eq_open rest hc.2
        cases hsplit : splitCloseNoNL rest.tail with
        | some rest2 =>
          rw [stripGo_open_some fuel c rest rest2 hc hsplit]
          refine ih rest2 ?_
          have h1 : rest2.length ≤ rest.tail.length := splitCloseNoNL_le _ _ hsplit
          have h2 : rest.tail.length ≤ rest.length := by cases rest <;> simp
          omega
        | none =>
          rw [stripGo_open_none fuel c rest hc hsplit]
          have hrest : splitCloseNoNL rest = none := by
            rw [hrt] at hsplit ⊢
            rw [splitCloseNoNL_open_cons rt]
            simpa using hsplit
          have hhd : (stripGo fuel rest).head? = some '{' :=
            (stripGo_head_none fuel rest hrest).trans hc.2
          have hres : hasResidualL (stripGo fuel rest) = false := ih rest hf'
          have hclos : closableL (stripGo fuel rest) = false :=
            closableL_stripGo fuel rest hf' hrest
          obtain ⟨xt, hxt⟩ := head_eq_open (stripGo fuel rest) hhd
          rw [hxt] at hres hclos
          have hxtc : closableL xt = false := by
            have h1 : ¬(('{' : Char) = '}' ∧ xt.head? = some '}') := by
              intro hcon; exact absurd hcon.1 (by decide)
            have h2 : ¬(('{' : Char) = '\n') := by decide
            rw [closableL_cons, if_neg h1, if_neg h2] at hclos
            exact hclos
          rw [hxt]
          have hcond : c = '{' ∧ (('{' :: xt) : List Char).head? = some '{' := by
            exact And.intro hc.1 (by simp)
          rw [hasResidualL_cons, if_pos hcond, List.tail_cons, hxtc, hres]
          rfl
      · rw [stripGo_cons fuel c rest hc]
        have hres : hasResidualL (stripGo fuel rest) = false := ih rest hf'
        by_cases hcb : c = '{'
        · have hh : rest.head? ≠ some '{' := by
            intro hcon; exact hc (And.intro hcb hcon)
          have hhd : (stripGo fuel rest).head? = rest.head? :=
            stripGo_head_notbrace fuel rest hh
          have hcond : ¬(c = '{' ∧ (stripGo fuel rest).head? = some '{') := by
            intro hcon; exact hh (hhd ▸ hcon.2)
          rw [hasResidualL_cons, if_neg hcond]
          exact hres
        · have hcond : ¬(c = '{' ∧ (stripGo fuel rest).head? = some '{') := by
            intro hcon; exact hcb hcon.1
          rw [hasResidualL_cons, if_neg hcond]
          exact hres

/-- The strip pass of the expander leaves no matchable template delimiter. -/
theorem hasResidualL_stripL (l : List Char) : hasResidualL (stripL l) = false :=
  hasResidualL_stripGo l.length l (Nat.le_refl _)

/-- Go `unicode.IsSpace` restricted to the ASCII whitespace the pipeline
meets. -/
def isSpaceChar (c : Char) : Bool := c = ' ' ∨ c = '\t' ∨ c = '\n' ∨ c = '\r'

/-- Go `strings.TrimSpace`. -/
def trimL (l : List Char) : List Char :=
  ((l.dropWhile isSpaceChar).reverse.dropWhile isSpaceChar).reverse

def patEnvA : List Char := "\x7b\x7b.environment\x7d\x7d".toList

def patEnvB : List Char := "\x7b\x7b .environment \x7d\x7d".toList

def patGrpA : List Char := "\x7b\x7b.group\x7d\x7d".toList

def patGrpB : List Char := "\x7b\x7b .group \x7d\x7d".toList

def patCmpA : List Char := "\x7b\x7b.component\x7d\x7d".toList

def patCmpB : List Char := "\x7b\x7b .component \x7d\x7d".toList

/-- Source `interpolateString`: substitute the six supported template
variables, strip any remaining `\x7b\x7b.*?\x7d\x7d` match and trim
surrounding whitespace. -/
def interpolateString (s envName groupName compName : String) : String :=
  String.mk (trimL (stripL (
    replaceAllL patCmpB compName.toList (
    replaceAllL patCmpA compName.toList (
    replaceAllL patGrpB groupName.toList (
    replaceAllL patGrpA groupName.toList (
    replaceAllL patEnvB envName.toList (
    replaceAllL patEnvA envName.toList s.toList))))))))

/-- Per-value action of `interpolateProperties`: only string values are
interpolated; every other value passes through unchanged. -/
def interpolateValue (envName groupName compName : String) : Value → Value
  | Value.str s => Value.str (interpolateString s envName groupName compName)
  | v => v

/-- Source `interpolateProperties`: apply template substitution to every
top-level string property. -/
def interpolateProperties (props : AList Value) (envName groupName compName : String) :
    AList Value :=
  props.map (fun kv => (kv.1, interpolateValue envName groupName compName kv.2))

theorem replaceAllGo_no_open (pat repl : List Char) (fuel : Nat) (s : List Char)
    (hpat : pat.head? = some '{') (hs : '{' ∉ s) :
    replaceAllGo pat repl fuel s = s := by
  induction fuel generalizing s with
  | zero => cases s <;> rfl
  | succ fuel ih =>
    cases s with
    | nil => rfl
    | cons c rest =>
      obtain ⟨ps, hps⟩ := head_eq_open pat hpat
      have hcne : c ≠ '{' := by
        intro hcon
        exact hs (by rw [hcon]; exact List.mem_cons_self _ _)
      have hcond : ¬(pat ≠ [] ∧ startsWithL pat (c :: rest) = true) := by
        intro hcon
        rw [hps] at hcon
        have := hcon.2
        simp only [startsWithL, Bool.and_eq_true, decide_eq_true_eq] at this
        exact hcne this.1.symm
      simp only [replaceAllGo, if_neg hcond]
      have hrest : '{' ∉ rest := fun hmem => hs (List.mem_cons_of_mem _ hmem)
      rw [ih rest hrest]

theorem stripGo_no_open (fuel : Nat) (l : List Char) (h : '{' ∉ l) :
    stripGo fuel l = l := by
  induction fuel generalizing l with
  | zero => exact stripGo_zero l
  | succ fuel ih =>
    cases l with
    | nil => rfl
    | cons c rest =>
      have hc : ¬(c = '{' ∧ rest.head? = some '{') := by
        intro hcon
        exact h (by rw [hcon.1]; exact List.mem_cons_self _ _)
      rw [stripGo_cons fuel c rest hc]
      have hrest : '{' ∉ rest := fun hmem => h (List.mem_cons_of_mem _ hmem)
      rw [ih rest hrest]

/-- Clean strings: no open brace (so no template pattern can occur) and no
surrounding whitespace.  Interpolation is the identity on them. -/
def cleanStr (s : String) : Prop := '{' ∉ s.toList ∧ trimL s.toList = s.toList

instance (s : String) : Decidable (cleanStr s) := by
  unfold cleanStr; infer_instance

theorem replaceAllL_no_open (pat repl s : List Char)
    (hpat : pat.head? = some '{') (hs : '{' ∉ s) :
    replaceAllL pat repl s = s :=
  replaceAllGo_no_open pat repl s.length s hpat hs

theorem interpolateString_clean (s envName groupName compName : String)
    (h : cleanStr s) : interpolateString s envName groupName compName = s := by
  obtain ⟨hno, htrim⟩ := h
  unfold interpolateString
  rw [replaceAllL_no_open patEnvA _ _ (by decide) hno,
    replaceAllL_no_open patEnvB _ _ (by decide) hno,
    replaceAllL_no_open patGrpA _ _ (by decide) hno,
    replaceAllL_no_open patGrpB _ _ (by decide) hno,
    replaceAllL_no_open patCmpA _ _ (by decide) hno,
    replaceAllL_no_open patCmpB _ _ (by decide) hno]
  unfold stripL
  rw [stripGo_no_open _ _ hno, htrim]
  cases s
  rfl

/-- Standard object metadata (`internal/model`).  The Go field `Namespace`
is rendered here as `nspace` because of the Lean keyword. -/
structure Metadata where
  name : String
  description : String
  nspace : String
deriving DecidableEq, Repr

/-- Inter-component execution constraint (`internal/model`, `Dependency`). -/
structure Dependency where
  component : String
  environment : String
  scope : String
  condition : String
deriving DecidableEq, Repr

/-- Execution-agnostic component declaration (`internal/model`,
`Component`).  The `path` field is exercised by the current expander
(`comp.Path` in `mergeProperties`); the stale model snapshot in the
sources predates it, so its declaration follows the spec's component
attribute list. -/
structure Component where
  name : String
  type : String
  domain : String
  enabled : Bool
  path : String
  inputs : AList Value
  labels : AList String
  dependsOn : List Dependency
deriving DecidableEq, Repr

/-- Selectors of an environment. -/
structure Selectors where
  components : List String
  domains : List String
deriving DecidableEq, Repr

/-- Modelled from the spec: the current `internal/model` environment type
is absent from the sources (only the stale `ForEach` snapshot survives,
which the checked-in normalizer no longer compiles against); per spec §3
an environment carries selectors, defaults and policies. -/
structure Environment where
  selectors : Selectors
  defaults : AList Value
  policies : AList Value
deriving DecidableEq, Repr

/-- Ownership group with policy constraints (`internal/model`, `Group`). -/
structure Group where
  policies : AList Value
  defaults : AList Value
deriving DecidableEq, Repr

/-- Top-level intent document (`internal/model`, `Intent`). -/
structure Intent where
  apiVersion : String
  kind : String
  metadata : Metadata
  groups : AList Group
  environments : AList Environment
  components : List Component
deriving DecidableEq, Repr

/-- Canonical internal representation (`internal/model`,
`NormalizedIntent`). -/
structure NormalizedIntent where
  metadata : Metadata
  groups : AList Group
  environments : AList Environment
  components : AList Component
  componentIndex : AList Component
deriving DecidableEq, Repr

/-- Normalization of one dependency edge (`internal/normalize`,
`NormalizeIntent` lines 52-66). -/
def normalizeDependency (dep : Dependency) : Dependency :=
  let dep := if dep.environment = "" then { dep with environment := "__same__" } else dep
  let dep := if dep.scope = "" then { dep with scope := "same-environment" } else dep
  if dep.condition = "" then { dep with condition := "success" } else dep

/-- Source `internal/normalize/intent.go` lines 35-38, verbatim:
`if !comp.Enabled && comp.Enabled != true \x7b comp.Enabled = true \x7d`.
The second conjunct restates the first, so every `false` (unset or the
explicit `enabled: false`) is rewritten to `true`. -/
def normalizeEnabled (comp : Component) : Component :=
  if (!comp.enabled) = true ∧ comp.enabled ≠ true then { comp with enabled := true }
  else comp

/-- Component loop of `NormalizeIntent`: validate name and type, apply the
enabled rewrite, normalize the dependency edges, and index the component
under its name (both `Components` and `ComponentIndex` receive the same
insertions). -/
def normalizeComponents : List Component → AList Component → Except String (AList Component)
  | [], acc => Except.ok acc
  | comp :: rest, acc =>
    if comp.name = "" then
      Except.error "component must have a name"
    else if comp.type = "" then
      Except.error ("component " ++ comp.name ++ " must have a type")
    else
      let comp := normalizeEnabled comp
      let comp := { comp with dependsOn := comp.dependsOn.map normalizeDependency }
      normalizeComponents rest (insertA acc comp.name comp)

/-- Wildcard expansion of an environment's component selectors.  The Go
code iterates the `ComponentIndex` map; the embedding uses the index's
insertion order (declaration order), one of the orders the randomized Go
map iteration can produce. -/
def expandSelectors (componentIndex : AList Component) (env : Environment) : Environment :=
  if env.selectors.components.contains "*" then
    { env with selectors := { env.selectors with components := keysA componentIndex } }
  else env

/-- Source `NormalizeIntent` (`internal/normalize/intent.go`). -/
def NormalizeIntent (intent : Intent) : Except String NormalizedIntent := do
  let comps ← normalizeComponents intent.components []
  let envs := intent.environments.map (fun kv => (kv.1, expandSelectors comps kv.2))
  Except.ok {
    metadata := intent.metadata
    groups := intent.groups
    environments := envs
    components := comps
    componentIndex := comps }

/-- Dependency edge with its target environment made concrete
(`internal/model`, `ResolvedDependency`). -/
structure ResolvedDependency where
  componentName : String
  environment : String
  scope : String
  condition : String
deriving DecidableEq, Repr

/-- Component instance produced by expansion (`internal/model`,
`ComponentInstance`). -/
structure ComponentInstance where
  componentName : String
  environment : String
  type : String
  domain : String
  labels : AList String
  inputs : AList Value
  policies : AList Value
  dependsOn : List ResolvedDependency
  enabled : Bool
  path : String
deriving DecidableEq, Repr

/-- Source `resolveDependencies` of the expander (`internal/expand`): the
`__same__` sentinel becomes the dependent instance's environment. -/
def resolveDependencies (comp : Component) (envName : String) : List ResolvedDependency :=
  comp.dependsOn.map (fun dep =>
    { componentName := dep.component
      environment := if dep.environment = "__same__" then envName else dep.environment
      scope := dep.scope
      condition := dep.condition })

/-- Source `resolvePolicies`: shallow union of the group's policies
overridden by the environment's policies. -/
def resolvePolicies (groups : AList Group) (environments : AList Environment)
    (comp : Component) (envName : String) : AList Value :=
  let policies : AList Value := []
  let policies :=
    if comp.domain ≠ "" then
      match lookupA groups comp.domain with
      | some group => insertAllA policies group.policies
      | none => policies
    else policies
  match lookupA environments envName with
  | some env => insertAllA policies env.policies
  | none => policies

/-- One defaults-merging loop of `mergeProperties`: write every non-path
entry into the accumulator; a string value under `path` is set aside in
the second component instead of being merged (a non-string `path` value is
dropped entirely, as in the source). -/
def mergeDefaultsLoop (entries : AList Value) (st : AList Value × String) :
    AList Value × String :=
  entries.foldl (fun st kv =>
    if kv.1 = "path" then
      match kv.2 with
      | Value.str p => (st.1, p)
      | _ => st
    else (insertA st.1 kv.1 kv.2, st.2)) st

/-- Source `mergeProperties` (`internal/expand`, current expander):
environment defaults first, then group defaults, then component inputs;
`path` is resolved separately with priority component > group >
environment, and the whole merged map is template-interpolated. -/
def mergeProperties (groups : AList Group) (comp : Component) (env : Environment)
    (envName compName : String) : AList Value :=
  let st1 := mergeDefaultsLoop env.defaults ([], "")
  let envPath := st1.2
  let st2 :=
    if comp.domain ≠ "" then
      match lookupA groups comp.domain with
      | some group => mergeDefaultsLoop group.defaults (st1.1, "")
      | none => (st1.1, "")
    else (st1.1, "")
  let groupPath := st2.2
  let merged := insertAllA st2.1 comp.inputs
  let merged :=
    if comp.path ≠ "" then insertA merged "path" (Value.str comp.path)
    else if groupPath ≠ "" then insertA merged "path" (Value.str groupPath)
    else if envPath ≠ "" then insertA merged "path" (Value.str envPath)
    else merged
  interpolateProperties merged envName comp.domain compName

/-- Expansion of one (environment, component) pair, `Expand` loop body:
missing components are skipped, disabled components are skipped, the
merged properties are computed, and a string `path` entry is moved from
the merged inputs onto the instance (absent `path` defaults to `./`; a
non-string `path` value stays in the inputs and leaves the path empty,
as in the source). -/
def expandInstance (n : NormalizedIntent) (envName : String) (env : Environment)
    (compName : String) : Option ComponentInstance :=
  match lookupA n.componentIndex compName with
  | none => none
  | some comp =>
    if (!comp.enabled) = true then none
    else
      let merged := mergeProperties n.groups comp env envName compName
      let pathInputs :=
        match lookupA merged "path" with
        | some (Value.str p) => (p, eraseA merged "path")
        | some _ => ("", merged)
        | none => ("./", merged)
      some {
        componentName := compName
        environment := envName
        type := comp.type
        domain := comp.domain
        labels := comp.labels
        enabled := comp.enabled
        inputs := pathInputs.2
        path := pathInputs.1
        policies := resolvePolicies n.groups n.environments comp envName
        dependsOn := resolveDependencies comp envName }

/-- Source `Expand`: one ordered instance list per environment.  The Go
code iterates the environments map; the embedding iterates the
association list in storage order (environment iteration order never
changes which instances exist, only the order of the outer map, whose
entries are keyed). -/
def Expand (n : NormalizedIntent) : AList (List ComponentInstance) :=
  n.environments.map (fun kv =>
    (kv.1, kv.2.selectors.components.filterMap (expandInstance n kv.1 kv.2)))

/-- Segment of a parsed `text/template`: literal text or a field action
such as `\x7b\x7b.replicas\x7d\x7d`.  The embedding covers the fragment
of the template language the compositions use (dotted field chains with
optional surrounding spaces); templates outside it are parse errors. -/
inductive Seg where
  | lit (s : List Char)
  | fld (path : List String)
deriving DecidableEq, Repr

/-- Lexing: the text before the leftmost `\x7b\x7b` open delimiter, plus
the remainder after that delimiter when one occurs. -/
def splitOpen : List Char → List Char × Option (List Char)
  | [] => ([], none)
  | c :: rest =>
    if c = '{' ∧ rest.head? = some '{' then ([], some rest.tail)
    else
      let p := splitOpen rest
      (c :: p.1, p.2)

/-- Lexing: the action content before the leftmost `\x7d\x7d` close
delimiter, plus the remainder after it. -/
def splitCloseT : List Char → Option (List Char × List Char)
  | [] => none
  | c :: rest =>
    if c = '}' ∧ rest.head? = some '}' then some ([], rest.tail)
    else
      match splitCloseT rest with
      | some p => some (c :: p.1, p.2)
      | none => none

def isIdentChar (c : Char) : Bool := c.isAlphanum || c = '_'

/-- Parse a dotted field chain `.a.b` (fuelled: the fuel bounds the
recursion over the shrinking suffix). -/
def parseFieldsGo : Nat → List Char → Option (List String)
  | _, [] => some []
  | 0, _ => none
  | fuel + 1, c :: rest =>
    if c = '.' then
      let name := rest.takeWhile isIdentChar
      let after := rest.dropWhile isIdentChar
      if name.isEmpty then none
      else
        match parseFieldsGo fuel after with
        | some fs => some (String.mk name :: fs)
        | none => none
    else none

/-- Trim the spaces Go's template lexer skips inside an action. -/
def trimActionSpaces (l : List Char) : List Char :=
  ((l.dropWhile (fun c => c = ' ')).reverse.dropWhile (fun c => c = ' ')).reverse

/-- Parse one action's content into a non-empty field path. -/
def parseAction (content : List Char) : Option (List String) :=
  let content := trimActionSpaces content
  match parseFieldsGo content.length content with
  | some (f :: fs) => some (f :: fs)
  | _ => none

/-- Fuelled template parser: alternating literal text and field actions. -/
def parseTmplGo : Nat → List Char → Option (List Seg)
  | 0, _ => none
  | fuel + 1, l =>
    match splitOpen l with
    | (lit, none) => some [Seg.lit lit]
    | (lit, some rest) =>
      match splitCloseT rest with
      | none => none
      | some (content, rest2) =>
        match parseAction content with
        | none => none
        | some path =>
          match parseTmplGo fuel rest2 with
          | some segs => some (Seg.lit lit :: Seg.fld path :: segs)
          | none => none

/-- Go `template.New(name).Parse(run)` over the supported fragment. -/
def parseTmpl (l : List Char) : Option (List Seg) := parseTmplGo (l.length + 1) l

/-- Keys of a string map sorted, as Go's `fmt` package prints maps. -/
def insertSortedEntry (kv : String × String) : List (String × String) → List (String × String)
  | [] => [kv]
  | hd :: tl =>
    if kv.1 ≤ hd.1 then kv :: hd :: tl else hd :: insertSortedEntry kv tl

def sortEntries (m : List (String × String)) : List (String × String) :=
  m.foldr insertSortedEntry []

/-- Rendering of a context value by template execution (Go `fmt` `%v`). -/
def renderValue : Value → String
  | Value.str s => s
  | Value.int n => toString n
  | Value.bool b => if b then "true" else "false"
  | Value.strMap m =>
    "map[" ++ String.intercalate " " ((sortEntries m).map (fun kv => kv.1 ++ ":" ++ kv.2)) ++ "]"

/-- Evaluate one field action against the context map.  A missing
top-level key renders as `<no value>` (Go's map semantics); descending
into a missing or non-map value is an execution error. -/
def execField (ctx : AList Value) (path : List String) : Except String String :=
  match path with
  | [] => Except.error "empty field path"
  | [f] =>
    match lookupA ctx f with
    | some v => Except.ok (renderValue v)
    | none => Except.ok "<no value>"
  | f :: g :: rest =>
    match lookupA ctx f with
    | some (Value.strMap m) =>
      match rest with
      | [] =>
        match lookupA m g with
        | some s => Except.ok s
        | none => Except.ok "<no value>"
      | _ :: _ => Except.error ("can't descend below field " ++ g)
    | some _ => Except.error ("can't evaluate field " ++ g ++ " in non-map value")
    | none => Except.error ("nil pointer evaluating field " ++ g)

/-- Go `tmpl.Execute(&buf, context)`: concatenate literals and evaluated
field actions. -/
def execSegs (ctx : AList Value) : List Seg → Except String (List Char)
  | [] => Except.ok []
  | Seg.lit s :: rest =>
    match execSegs ctx rest with
    | Except.ok r => Except.ok (s ++ r)
    | Except.error e => Except.error e
  | Seg.fld p :: rest =>
    match execField ctx p with
    | Except.error e => Except.error e
    | Except.ok v =>
      match execSegs ctx rest with
      | Except.ok r => Except.ok (v.toList ++ r)
      | Except.error e => Except.error e

/-- Step template (`internal/model`, `Step`). -/
structure Step where
  name : String
  run : String
  timeout : String
  retry : Int
  onFailure : String
deriving DecidableEq, Repr

/-- Job specification (`internal/model`, `JobSpec`). -/
structure JobSpec where
  name : String
  description : String
  timeout : String
  retries : Int
  steps : List Step
  inputs : AList Value
  labels : AList String
deriving DecidableEq, Repr

/-- Job registry document (`internal/model`, `JobRegistry`). -/
structure JobRegistry where
  apiVersion : String
  kind : String
  metadata : Metadata
  jobs : List JobSpec
deriving DecidableEq, Repr

/-- Step with all templates resolved (`internal/model`, `RenderedStep`). -/
structure RenderedStep where
  name : String
  run : String
  timeout : String
  retry : Int
  onFailure : String
deriving DecidableEq, Repr

/-- Materialized job for a component in an environment (`internal/model`,
`JobInstance`). -/
structure JobInstance where
  id : String
  name : String
  component : String
  environment : String
  composition : String
  path : String
  steps : List RenderedStep
  dependsOn : List String
  timeout : String
  retries : Int
  config : AList Value
  labels : AList String
deriving DecidableEq, Repr

/-- Planner-side default-job record (`internal/planner`,
`CompositionInfo`). -/
structure CompositionInfo where
  type : String
  defaultJob : Option JobSpec
deriving DecidableEq, Repr

namespace Planner

/-- Template context of `renderSteps`: `Component`, `Environment`, `Type`
plus every merged input (inputs can override the three built-ins, as the
Go range loop writes them second). -/
def buildContext (compInst : ComponentInstance) : AList Value :=
  insertAllA
    [("Component", Value.str compInst.componentName),
     ("Environment", Value.str compInst.environment),
     ("Type", Value.str compInst.type)]
    compInst.inputs

/-- Step loop of `renderSteps` with the planner's template cache, keyed
`type:stepName`: a cached parse is reused without looking at the current
step's `run` string. -/
def renderStepsGo (context : AList Value) (typeName : String) :
    List Step → AList (List Seg) → Except String (List RenderedStep × AList (List Seg))
  | [], cache => Except.ok ([], cache)
  | step :: rest, cache =>
    let cacheKey := typeName ++ ":" ++ step.name
    let parsed : Except String (List Seg × AList (List Seg)) :=
      match lookupA cache cacheKey with
      | some tmpl => Except.ok (tmpl, cache)
      | none =>
        match parseTmpl step.run.toList with
        | none => Except.error ("invalid template in step " ++ step.name)
        | some tmpl => Except.ok (tmpl, insertA cache cacheKey tmpl)
    match parsed with
    | Except.error e => Except.error e
    | Except.ok (tmpl, cache) =>
      match execSegs context tmpl with
      | Except.error e =>
        Except.error ("failed to execute template in step " ++ step.name ++ ": " ++ e)
      | Except.ok out =>
        match renderStepsGo context typeName rest cache with
        | Except.error e => Except.error e
        | Except.ok (others, cache) =>
          let rstep : RenderedStep := {
            name := step.name
            run := String.mk out
            timeout := step.timeout
            retry := step.retry
            onFailure := step.onFailure }
          Except.ok (rstep :: others, cache)

/-- Source `renderSteps` (`internal/planner`). -/
def renderSteps (cache : AList (List Seg)) (steps : List Step)
    (compInst : ComponentInstance) : Except String (List RenderedStep × AList (List Seg)) :=
  renderStepsGo (buildContext compInst) compInst.type steps cache

/-- Instance loop of `PlanJobs` for one environment. -/
def planJobsEnv (compositions : AList CompositionInfo) (envName : String) :
    List ComponentInstance → AList JobInstance → AList (List Seg) →
    Except String (AList JobInstance × AList (List Seg))
  | [], jobInstances, cache => Except.ok (jobInstances, cache)
  | compInst :: rest, jobInstances, cache =>
    match lookupA compositions compInst.type with
    | none => Except.error ("no job definition for type: " ++ compInst.type)
    | some compositionInfo =>
      match compositionInfo.defaultJob with
      | none => Except.error ("no default job defined for type: " ++ compInst.type)
      | some jobDef =>
        let jobID := compInst.componentName ++ "@" ++ envName ++ "." ++ jobDef.name
        match renderSteps cache jobDef.steps compInst with
        | Except.error e =>
          Except.error ("failed to render steps for job " ++ jobID ++ ": " ++ e)
        | Except.ok (renderedSteps, cache) =>
          let jobInst : JobInstance := {
            id := jobID
            name := jobDef.name
            component := compInst.componentName
            environment := envName
            composition := compInst.type
            path := compInst.path
            steps := renderedSteps
            dependsOn := []
            timeout := jobDef.timeout
            retries := jobDef.retries
            config := compInst.inputs
            labels := compInst.labels }
          planJobsEnv compositions envName rest (insertA jobInstances jobID jobInst) cache

/-- Environment loop of `PlanJobs`. -/
def planJobsAll (compositions : AList CompositionInfo) :
    AList (List ComponentInstance) → AList JobInstance → AList (List Seg) →
    Except String (AList JobInstance × AList (List Seg))
  | [], jobInstances, cache => Except.ok (jobInstances, cache)
  | (envName, envInstances) :: rest, jobInstances, cache =>
    match planJobsEnv compositions envName envInstances jobInstances cache with
    | Except.error e => Except.error e
    | Except.ok (jobInstances, cache) => planJobsAll compositions rest jobInstances cache

/-- The `(component, environment) → job ids` lookup map of
`resolveDependencies`. -/
def buildCompToJobs (jobInstances : AList JobInstance) : AList (List String) :=
  jobInstances.foldl (fun acc kv =>
    let key := kv.2.component ++ "@" ++ kv.2.environment
    match lookupA acc key with
    | some ids => insertA acc key (ids ++ [kv.1])
    | none => insertA acc key [kv.1]) []

/-- Edge loop of `resolveDependencies` for one component instance: every
target job id is appended to every one of the instance's jobs, with no
de-duplication. -/
def resolveDepsEdges (compToJobs : AList (List String)) (key : String)
    (myJobs : List String) :
    List ResolvedDependency → AList JobInstance → Except String (AList JobInstance)
  | [], jobs => Except.ok jobs
  | dep :: rest, jobs =>
    let depKey := dep.componentName ++ "@" ++ dep.environment
    match lookupA compToJobs depKey with
    | none => Except.error ("dependency not found: " ++ key ++ " depends on " ++ depKey)
    | some depJobs =>
      let jobs := myJobs.foldl (fun js myJob =>
        updateA js myJob (fun j => { j with dependsOn := j.dependsOn ++ depJobs })) jobs
      resolveDepsEdges compToJobs key myJobs rest jobs

/-- Instance loop of `resolveDependencies` for one environment. -/
def resolveDepsList (compToJobs : AList (List String)) (envName : String) :
    List ComponentInstance → AList JobInstance → Except String (AList JobInstance)
  | [], jobs => Except.ok jobs
  | compInst :: rest, jobs =>
    let key := compInst.componentName ++ "@" ++ envName
    match lookupA compToJobs key with
    | none => resolveDepsList compToJobs envName rest jobs
    | some myJobs =>
      match resolveDepsEdges compToJobs key myJobs compInst.dependsOn jobs with
      | Except.error e => Except.error e
      | Except.ok jobs => resolveDepsList compToJobs envName rest jobs

/-- Source `resolveDependencies` (`internal/planner`). -/
def resolveDependencies (jobInstances : AList JobInstance)
    (compInstances : AList (List ComponentInstance)) : Except String (AList JobInstance) :=
  let compToJobs := buildCompToJobs jobInstances
  let rec loop : AList (List ComponentInstance) → AList JobInstance →
      Except String (AList JobInstance)
    | [], jobs => Except.ok jobs
    | (envName, envInstances) :: rest, jobs =>
      match resolveDepsList compToJobs envName envInstances jobs with
      | Except.error e => Except.error e
      | Except.ok jobs => loop rest jobs
  loop compInstances jobInstances

/-- Source `PlanJobs` (`internal/planner`): bind every instance to its
composition's default job, render the steps, then resolve dependency
edges. -/
def PlanJobs (compositions : AList CompositionInfo)
    (instances : AList (List ComponentInstance)) : Except String (AList JobInstance) :=
  match planJobsAll compositions instances [] [] with
  | Except.error e => Except.error e
  | Except.ok (jobInstances, _cache) => resolveDependencies jobInstances instances

end Planner

/-- Source `hasCycleDFS` (`internal/planner`, graph): depth-first search
with `visited` and `recStack` marking; the fuel bounds the nesting depth
(each nested call visits a previously unvisited node, so one more than
the node count always suffices).  A `dependsOn` target already on the
stack is a cycle; an unknown target is ignored. -/
def hasCycleDFS (jobs : AList JobInstance) :
    Nat → String → List String → List String → Bool × List String × List String
  | 0, _, visited, recStack => (false, visited, recStack)
  | fuel + 1, node, visited, recStack =>
    let visited := node :: visited
    let recStack := node :: recStack
    match lookupA jobs node with
    | none => (false, visited, recStack)
    | some job =>
      let res := job.dependsOn.foldl (fun st dep =>
        if st.1 then st
        else if !(st.2.1.contains dep) then
          hasCycleDFS jobs fuel dep st.2.1 st.2.2
        else if st.2.2.contains dep then (true, st.2.1, st.2.2)
        else st) (false, visited, recStack)
      if res.1 then res
      else (false, res.2.1, res.2.2.erase node)

/-- Source `DetectCycles`: run the DFS from every not-yet-visited node.
The Go code iterates the jobs map; `order` is that iteration order. -/
def DetectCycles (jobs : AList JobInstance) (order : List String) : Except String Unit :=
  let res := order.foldl (fun st jobID =>
    if st.1 then st
    else if !(st.2.1.contains jobID) then
      hasCycleDFS jobs (jobs.length + 1) jobID st.2.1 st.2.2
    else st) (false, ([] : List String), ([] : List String))
  if res.1 then Except.error "cycle detected in job dependencies" else Except.ok ()

/-- Queue-processing loop of Kahn's algorithm (`TopologicalSort`): pop the
queue head, emit it, decrement each dependent's in-degree and enqueue the
newly zeroed ones.  The fuel bounds the pops; every node is enqueued at
most once so one more than the node count suffices. -/
def decrementFold (deps : List String) (st : AList Int × List String) :
    AList Int × List String :=
  deps.foldl (fun st dependent =>
    let d := (lookupA st.1 dependent).getD 0 - 1
    let inDeg := insertA st.1 dependent d
    if d = 0 then (inDeg, st.2 ++ [dependent]) else (inDeg, st.2)) st

def kahnLoop (dependents : AList (List String)) :
    Nat → List String → AList Int → List String → List String
  | _, [], _, sorted => sorted
  | 0, _ :: _, _, sorted => sorted
  | fuel + 1, current :: queue, inDegree, sorted =>
    let sorted := sorted ++ [current]
    let deps := (lookupA dependents current).getD []
    let st := decrementFold deps (inDegree, queue)
    kahnLoop dependents fuel st.2 st.1 sorted

/-- Edge-counting loop of `TopologicalSort`: one entry is appended to
`dependents[dep]` and the job's in-degree is incremented once per
occurrence of `dep` in the job's `dependsOn` multiset. -/
def countEdges (jobID : String) (deps : List String)
    (st : AList Int × AList (List String)) : AList Int × AList (List String) :=
  deps.foldl (fun st2 dep =>
    let depList := (lookupA st2.2 dep).getD []
    let dependents2 := insertA st2.2 dep (depList ++ [jobID])
    let inDeg2 := insertA st2.1 jobID ((lookupA st2.1 jobID).getD 0 + 1)
    (inDeg2, dependents2)) st

/-- Source `TopologicalSort` (`internal/planner`, graph): Kahn's
algorithm.  The Go code iterates the jobs map to initialize and count,
and iterates the in-degree map to seed the queue; `order` is that
iteration order.  No sorting of the queue or of in-degree-zero batches
takes place anywhere. -/
def TopologicalSort (jobs : AList JobInstance) (order : List String) :
    Except String (List String) :=
  let inDegree : AList Int := order.foldl (fun acc id => insertA acc id 0) []
  let dependents : AList (List String) := order.foldl (fun acc id => insertA acc id []) []
  let st := order.foldl (fun st jobID =>
    match lookupA jobs jobID with
    | none => st
    | some job => countEdges jobID job.dependsOn st) (inDegree, dependents)
  let queue := order.filter (fun id => (lookupA st.1 id).getD 0 = 0)
  let sorted := kahnLoop st.2 (order.length + 1) queue st.1 []
  if sorted.length ≠ jobs.length then
    Except.error "failed to topologically sort: possible cycle detected"
  else
    Except.ok sorted

/-- Step of the final plan (`internal/model`, `PlanStep`). -/
structure PlanStep where
  name : String
  run : String
  timeout : String
  retry : Int
  onFailure : String
deriving DecidableEq, Repr

/-- Execution unit of the final plan (`internal/model`, `PlanJob`). -/
structure PlanJob where
  id : String
  name : String
  component : String
  environment : String
  composition : String
  jobRegistry : String
  job : String
  path : String
  steps : List PlanStep
  dependsOn : List String
  timeout : String
  retries : Int
  env : AList Value
  labels : AList String
  config : AList Value
deriving DecidableEq, Repr

/-- Plan specification holding the job bindings (`internal/model`,
`PlanSpec`). -/
structure PlanSpec where
  jobBindings : AList String
deriving DecidableEq, Repr

/-- Final execution-ready plan (`internal/model`, `Plan`). -/
structure Plan where
  apiVersion : String
  kind : String
  metadata : Metadata
  spec : PlanSpec
  jobs : List PlanJob
deriving DecidableEq, Repr

/-- Source `convertSteps` (`internal/render`). -/
def convertSteps (steps : List RenderedStep) : List PlanStep :=
  steps.map (fun step => {
    name := step.name
    run := step.run
    timeout := step.timeout
    retry := step.retry
    onFailure := step.onFailure })

/-- Source `RenderPlan` (`internal/render`): convert the job-instance map
into the plan's job sequence.  The Go code ranges over the map, so the
sequence follows the map iteration order, passed here as `order`; the
topologically sorted id list computed earlier in `generatePlan` is not
consulted. -/
def RenderPlan (metadata : Metadata) (jobInstances : AList JobInstance)
    (jobBindings : AList String) (order : List String) : Plan :=
  { apiVersion := "sourceplane.io/v1"
    kind := "Workflow"
    metadata := { name := metadata.name, description := metadata.description, nspace := "" }
    spec := { jobBindings := jobBindings }
    jobs := order.filterMap (fun id =>
      (lookupA jobInstances id).map (fun job =>
        { id := job.id
          name := job.name
          component := job.component
          environment := job.environment
          composition := job.composition
          jobRegistry := (lookupA jobBindings job.composition).getD ""
          job := job.name
          path := job.path
          steps := convertSteps job.steps
          dependsOn := job.dependsOn
          timeout := job.timeout
          retries := job.retries
          env := job.config
          labels := job.labels
          config := job.config })) }

/-- Validation object handed to a composition's JSON schema
(`internal/loader`, `ValidateComponentAgainstComposition`). -/
structure ValidationObj where
  name : String
  type : String
  inputs : AList Value
  domain : String
  labels : AList String

/-- Compiled JSON schema, abstracted to its accept/reject verdict. -/
abbrev SchemaFn := ValidationObj → Bool

/-- Loaded composition (`internal/loader`, `Composition`). -/
structure Composition where
  name : String
  jobs : List JobSpec
  schema : SchemaFn

/-- One discovered composition directory: its name and which of the two
files `job.yaml` (already parsed) and `schema.yaml` (already compiled)
it contains. -/
structure CompDir where
  name : String
  job : Option JobRegistry
  schema : Option SchemaFn

/-- Presence lookup on the `schemaFiles` map of the loader: some
discovered directory of this type name holds a `schema.yaml`. -/
def findSchema (dirs : List CompDir) (typeName : String) : Option SchemaFn :=
  match dirs.find? (fun d => d.name = typeName && d.schema.isSome) with
  | some d => d.schema
  | none => none

/-- Job-file loop of `LoadCompositionsFromDir`: every discovered
`job.yaml` must have a matching `schema.yaml` for its type and a
non-empty job list; directories carrying only a `schema.yaml` are never
examined by this loop. -/
def loadJobDirs (all : List CompDir) :
    List CompDir → AList Composition → Except String (AList Composition)
  | [], acc => Except.ok acc
  | d :: rest, acc =>
    match d.job with
    | none => loadJobDirs all rest acc
    | some reg =>
      match findSchema all d.name with
      | none => Except.error ("missing schema.yaml for job registry type " ++ d.name)
      | some sch =>
        if reg.jobs.isEmpty then
          Except.error ("no jobs defined in job registry for type " ++ d.name)
        else
          loadJobDirs all rest (insertA acc d.name { name := d.name, jobs := reg.jobs, schema := sch })

/-- Source `LoadCompositionsFromDir` (`internal/loader`), over an already
discovered directory listing. -/
def LoadCompositionsFromDir (dirs : List CompDir) : Except String (AList Composition) :=
  let jobDirs := dirs.filter (fun d => d.job.isSome)
  if jobDirs.isEmpty then
    Except.error "no job.yaml files found in config path"
  else
    match loadJobDirs dirs jobDirs [] with
    | Except.error e => Except.error e
    | Except.ok acc =>
      if acc.isEmpty then Except.error "no component type jobs found in config path"
      else Except.ok acc

/-- Source `ValidateComponentAgainstComposition` (`internal/loader`). -/
def ValidateComponentAgainstComposition (registry : AList Composition)
    (comp : Component) : Except String Unit :=
  match lookupA registry comp.type with
  | none => Except.error ("component type not found: " ++ comp.type)
  | some composition =>
    if composition.schema {
        name := comp.name
        type := comp.type
        inputs := comp.inputs
        domain := comp.domain
        labels := comp.labels } = true then
      Except.ok ()
    else
      Except.error ("component " ++ comp.name ++ " failed validation against type " ++ comp.type)

/-- Source `ValidateAllComponents`: validate every normalized component. -/
def validateList (registry : AList Composition) : AList Component → Except String Unit
  | [] => Except.ok ()
  | (_, comp) :: rest =>
    match ValidateComponentAgainstComposition registry comp with
    | Except.error e => Except.error e
    | Except.ok _ => validateList registry rest

/-- Job-bindings map of `generatePlan`: walk every discovered `job.yaml`
and record `type → metadata.name`. -/
def buildJobBindings (dirs : List CompDir) : AList String :=
  dirs.foldl (fun acc d =>
    match d.job with
    | some reg => insertA acc d.name reg.metadata.name
    | none => acc) []

/-- Source `generatePlan` (`cmd/liteci/main.go`): the full compile
pipeline.  `dcOrder`, `tsOrder` and `renderOrder` are the map iteration
orders of the three stages that range over the job-instance map (cycle
detection, topological sort, plan rendering).  Note that the sorted id
list returned by `TopologicalSort` is bound and discarded: `RenderPlan`
receives the unsorted map, exactly as in the source. -/
def generatePlan (intent : Intent) (dirs : List CompDir)
    (dcOrder tsOrder renderOrder : List String) : Except String Plan := do
  let registry ← LoadCompositionsFromDir dirs
  let compositionInfos : AList CompositionInfo := registry.map (fun kv =>
    (kv.1, { type := kv.1, defaultJob := kv.2.jobs.head? }))
  let normalized ← NormalizeIntent intent
  let _ ← validateList registry normalized.components
  let instances := Expand normalized
  let jobInstances ← Planner.PlanJobs compositionInfos instances
  let _ ← DetectCycles jobInstances dcOrder
  let _sorted ← TopologicalSort jobInstances tsOrder
  let jobBindings := buildJobBindings dirs
  Except.ok (RenderPlan intent.metadata jobInstances jobBindings renderOrder)

/-- Content of the artifact file after a `plan` run: `WritePlan` is only
reached after every stage succeeded, so nothing is written on error. -/
def writtenArtifact (intent : Intent) (dirs : List CompDir)
    (dcOrder tsOrder renderOrder : List String) : Option Plan :=
  match generatePlan intent dirs dcOrder tsOrder renderOrder with
  | Except.ok plan => some plan
  | Except.error _ => none

/-- Is the plan's job sequence topologically ordered: does every
`dependsOn` target occur at a strictly earlier position of the sequence? -/
def planRespectsTopo (p : Plan) : Bool :=
  (p.jobs.foldl (fun st job =>
    (st.1 && job.dependsOn.all (fun d => st.2.contains d), job.id :: st.2)) (true, [])).1

/-- Strict lexicographic (byte-wise) order on strings as character
lists. -/
def lexLtL : List Char → List Char → Bool
  | [], [] => false
  | [], _ :: _ => true
  | _ :: _, [] => false
  | a :: as, b :: bs =>
    if a.toNat < b.toNat then true
    else if b.toNat < a.toNat then false
    else lexLtL as bs

/-- Schema that accepts every component. -/
def schemaAll : SchemaFn := fun _ => true

def helmStep : Step :=
  { name := "deploy-step", run := "echo hi", timeout := "", retry := 0, onFailure := "" }

def helmJob : JobSpec :=
  { name := "deploy", description := "", timeout := "", retries := 0, steps := [helmStep],
    inputs := [], labels := [] }

def helmReg : JobRegistry :=
  { apiVersion := "sourceplane.io/v1", kind := "JobRegistry",
    metadata := { name := "helm-jobs", description := "", nspace := "" }, jobs := [helmJob] }

/-- Composition directory `helm/` holding a `job.yaml` and a
`schema.yaml`. -/
def helmDir : CompDir := { name := "helm", job := some helmReg, schema := some schemaAll }

/-- Composition directory holding only a `schema.yaml`. -/
def schemaOnlyDir : CompDir := { name := "terraform", job := none, schema := some schemaAll }

/-- Composition directory holding only a `job.yaml`. -/
def jobOnlyDir : CompDir := { name := "charts", job := some helmReg, schema := none }

def mkComp (nm : String) (deps : List Dependency) : Component :=
  { name := nm, type := "helm", domain := "", enabled := true, path := "", inputs := [],
    labels := [], dependsOn := deps }

/-- Same-environment dependency edge as written in an intent file
(`environment: ""`). -/
def depOn (nm : String) : Dependency :=
  { component := nm, environment := "", scope := "", condition := "" }

def mkEnv (comps : List String) : Environment :=
  { selectors := { components := comps, domains := [] }, defaults := [], policies := [] }

def demoMeta : Metadata := { name := "demo", description := "", nspace := "" }

/-- Intent with `db` and `web`, where `web` declares a same-environment
dependency on `db`. -/
def intentDepDW : Intent := {
  apiVersion := "sourceplane.io/v1"
  kind := "Intent"
  metadata := demoMeta
  groups := []
  environments := [("prod", mkEnv ["db", "web"])]
  components := [mkComp "db" [], mkComp "web" [depOn "db"]] }

/-- Intent with two independent components `a` and `b`. -/
def intentIndepAB : Intent := {
  apiVersion := "sourceplane.io/v1"
  kind := "Intent"
  metadata := demoMeta
  groups := []
  environments := [("prod", mkEnv ["a", "b"])]
  components := [mkComp "a" [], mkComp "b" []] }

/-- Component declared with `enabled: false` in the intent file. -/
def webDisabled : Component := {
  name := "web"
  type := "helm"
  domain := ""
  enabled := false
  path := ""
  inputs := []
  labels := []
  dependsOn := [] }

/-- Intent whose only component is declared with `enabled: false`. -/
def intentDisabled : Intent := {
  apiVersion := "sourceplane.io/v1"
  kind := "Intent"
  metadata := demoMeta
  groups := []
  environments := [("prod", mkEnv ["web"])]
  components := [webDisabled] }

/-- Intent where `a` and `b` each declare the other as a same-environment
dependency (spec scenario E). -/
def intentCycleAB : Intent := {
  apiVersion := "sourceplane.io/v1"
  kind := "Intent"
  metadata := demoMeta
  groups := []
  environments := [("prod", mkEnv ["a", "b"])]
  components := [mkComp "a" [depOn "b"], mkComp "b" [depOn "a"]] }

/-- C1.  The claim asserts the emitted plan lists jobs in topological
order.  The pipeline computes a topological sort and then discards it:
`RenderPlan` receives the unsorted job map and emits the jobs in Go's
randomized map iteration order.  Under the legal iteration order that
yields `web` before `db`, the plan places `web@prod.deploy` (which
depends on `db@prod.deploy`) strictly before its dependency, violating
the claimed invariant; the discarded `TopologicalSort` result for the
same jobs is the correct order, and the job-id sequences show the
reference-integrity half (every target id is present in the plan). -/
theorem claim_C1_plan_not_topologically_ordered :
    (generatePlan intentDepDW [helmDir]
        ["db@prod.deploy", "web@prod.deploy"] ["db@prod.deploy", "web@prod.deploy"]
        ["web@prod.deploy", "db@prod.deploy"]).toOption.map
      (fun p => (p.jobs.map PlanJob.id, planRespectsTopo p)) =
      some (["web@prod.deploy", "db@prod.deploy"], false) ∧
    (generatePlan intentDepDW [helmDir]
        ["db@prod.deploy", "web@prod.deploy"] ["db@prod.deploy", "web@prod.deploy"]
        ["web@prod.deploy", "db@prod.deploy"]).toOption.map
      (fun p => p.jobs.map (fun j => (j.id, j.dependsOn))) =
      some [("web@prod.deploy", ["db@prod.deploy"]), ("db@prod.deploy", [])] ∧
    List.Perm ["web@prod.deploy", "db@prod.deploy"] ["db@prod.deploy", "web@prod.deploy"] := by
  refine ⟨by decide, by decide, ?_⟩
  exact List.Perm.swap _ _ _

/-- C2.  The claim asserts byte-identical plan artifacts across runs and
lexicographic emission inside an in-degree-zero batch.  Neither sort
exists in the code: two runs over the byte-identical input that differ
only in the (randomized, unobservable) map iteration order produce plans
whose job sequences differ, and `TopologicalSort` emits an
in-degree-zero batch in whatever order the map iteration seeds the
queue — here `b@prod.deploy` before `a@prod.deploy`, which is not
lexicographic. -/
theorem claim_C2_plan_not_deterministic :
    (generatePlan intentIndepAB [helmDir]
        ["a@prod.deploy", "b@prod.deploy"] ["a@prod.deploy", "b@prod.deploy"]
        ["a@prod.deploy", "b@prod.deploy"]).toOption.map (fun p => p.jobs.map PlanJob.id) =
      some ["a@prod.deploy", "b@prod.deploy"] ∧
    (generatePlan intentIndepAB [helmDir]
        ["a@prod.deploy", "b@prod.deploy"] ["a@prod.deploy", "b@prod.deploy"]
        ["b@prod.deploy", "a@prod.deploy"]).toOption.map (fun p => p.jobs.map PlanJob.id) =
      some ["b@prod.deploy", "a@prod.deploy"] ∧
    generatePlan intentIndepAB [helmDir]
        ["a@prod.deploy", "b@prod.deploy"] ["a@prod.deploy", "b@prod.deploy"]
        ["a@prod.deploy", "b@prod.deploy"] ≠
      generatePlan intentIndepAB [helmDir]
        ["a@prod.deploy", "b@prod.deploy"] ["a@prod.deploy", "b@prod.deploy"]
        ["b@prod.deploy", "a@prod.deploy"] ∧
    (Planner.PlanJobs [("helm", { type := "helm", defaultJob := some helmJob })]
        ((NormalizeIntent intentIndepAB).toOption.elim [] Expand)).toOption.map
      (fun jobs => TopologicalSort jobs ["b@prod.deploy", "a@prod.deploy"]) =
      some (Except.ok ["b@prod.deploy", "a@prod.deploy"]) ∧
    lexLtL "a@prod.deploy".toList "b@prod.deploy".toList = true := by
  exact ⟨by decide, by decide, by decide, by decide, by decide⟩

/-- C3.  The claim asserts `enabled` defaults to true when unset and that
a component declared with `enabled = false` is absent from every
downstream representation.  The normalizer's guard
`!comp.Enabled && comp.Enabled != true` is equivalent to `!comp.Enabled`,
so the explicit `enabled: false` is rewritten to `true` and the
component flows through expansion, planning and rendering into the final
plan; the expander's skip-disabled branch is unreachable. -/
theorem claim_C3_disabled_component_planned :
    (NormalizeIntent intentDisabled).toOption.map
      (fun n => (lookupA n.componentIndex "web").map Component.enabled) =
      some (some true) ∧
    (generatePlan intentDisabled [helmDir]
        ["web@prod.deploy"] ["web@prod.deploy"] ["web@prod.deploy"]).toOption.map
      (fun p => p.jobs.map PlanJob.id) = some ["web@prod.deploy"] ∧
    intentDisabled.components.map Component.enabled = [false] := by
  exact ⟨by decide, by decide, by decide⟩

/-- C8.  Two mutually dependent components make `compile` fail with the
cycle-detection error under every iteration order of the two job ids,
and on any erroneous run nothing is written: `WritePlan` sits after
every stage in `generatePlan`, so an error leaves the artifact absent. -/
theorem claim_C8_cycle_error_no_artifact
    (o : List String)
    (ho : o = ["a@prod.deploy", "b@prod.deploy"] ∨ o = ["b@prod.deploy", "a@prod.deploy"]) :
    generatePlan intentCycleAB [helmDir] o o o =
      Except.error "cycle detected in job dependencies" ∧
    writtenArtifact intentCycleAB [helmDir] o o o = none := by
  cases ho with
  | inl h => subst h; exact ⟨by decide, by decide⟩
  | inr h => subst h; exact ⟨by decide, by decide⟩

/-- Witness for C8 at the first iteration order. -/
theorem claim_C8_cycle_error_no_artifact_witness :
    generatePlan intentCycleAB [helmDir] ["a@prod.deploy", "b@prod.deploy"]
        ["a@prod.deploy", "b@prod.deploy"] ["a@prod.deploy", "b@prod.deploy"] =
      Except.error "cycle detected in job dependencies" ∧
    writtenArtifact intentCycleAB [helmDir] ["a@prod.deploy", "b@prod.deploy"]
        ["a@prod.deploy", "b@prod.deploy"] ["a@prod.deploy", "b@prod.deploy"] = none :=
  claim_C8_cycle_error_no_artifact ["a@prod.deploy", "b@prod.deploy"] (Or.inl rfl)

/-- C9, counterexample.  The claim asserts loading also fails when a
composition directory contains `schema.yaml` but no `job.yaml`.  It does
not: with `helm/` complete and `terraform/` holding only a
`schema.yaml`, loading succeeds and silently ignores `terraform`. -/
theorem claim_C9_counterexample_schema_only_ignored :
    (LoadCompositionsFromDir [helmDir, schemaOnlyDir]).toOption.map keysA = some ["helm"] ∧
    schemaOnlyDir.job = none ∧ (schemaOnlyDir.schema).isSome = true := by
  exact ⟨by decide, rfl, rfl⟩

theorem loadJobDirs_error (all : List CompDir) (list : List CompDir) (acc : AList Composition)
    (d : CompDir) (hd : d ∈ list) (hjob : d.job.isSome = true)
    (hs : findSchema all d.name = none) :
    ∃ e, loadJobDirs all list acc = Except.error e := by
  induction list generalizing acc with
  | nil => cases hd
  | cons hd0 tl ih =>
    cases hjob0 : hd0.job with
    | none =>
      have hdtl : d ∈ tl := by
        cases List.mem_cons.mp hd with
        | inl h => exfalso; rw [h, hjob0] at hjob; cases hjob
        | inr h => exact h
      obtain ⟨e, he⟩ := ih acc hdtl
      exact ⟨e, by simp only [loadJobDirs, hjob0]; exact he⟩
    | some reg =>
      cases hfs : findSchema all hd0.name with
      | none =>
        refine ⟨"missing schema.yaml for job registry type " ++ hd0.name, ?_⟩
        simp only [loadJobDirs, hjob0, hfs]
      | some sch =>
        have hdtl : d ∈ tl := by
          cases List.mem_cons.mp hd with
          | inl h => exfalso; rw [h] at hs; rw [hs] at hfs; cases hfs
          | inr h => exact h
        by_cases hje : reg.jobs.isEmpty = true
        · refine ⟨"no jobs defined in job registry for type " ++ hd0.name, ?_⟩
          simp only [loadJobDirs, hjob0, hfs, if_pos hje]
        · obtain ⟨e, he⟩ :=
            ih (insertA acc hd0.name { name := hd0.name, jobs := reg.jobs, schema := sch }) hdtl
          exact ⟨e, by simp only [loadJobDirs, hjob0, hfs, if_neg hje]; exact he⟩

/-- C9, amended.  The direction the code does implement: whenever some
discovered directory holds a `job.yaml` whose type has no `schema.yaml`
anywhere in the listing, composition loading fails. -/
theorem claim_C9_amended_job_without_schema_fails (dirs : List CompDir) (d : CompDir)
    (hmem : d ∈ dirs) (hjob : d.job.isSome = true)
    (hs : findSchema dirs d.name = none) :
    ∃ e, LoadCompositionsFromDir dirs = Except.error e := by
  have hdfilter : d ∈ dirs.filter (fun d => d.job.isSome) :=
    List.mem_filter.mpr ⟨hmem, hjob⟩
  have hne : (dirs.filter (fun d => d.job.isSome)).isEmpty = false := by
    cases hfe : (dirs.filter (fun d => d.job.isSome)) with
    | nil => rw [hfe] at hdfilter; cases hdfilter
    | cons x xs => rfl
  obtain ⟨e, he⟩ := loadJobDirs_error dirs (dirs.filter (fun d => d.job.isSome)) [] d
    hdfilter hjob hs
  refine ⟨e, ?_⟩
  unfold LoadCompositionsFromDir
  simp only [hne, Bool.false_eq_true, if_false, he]

/-- Witness for the amended C9 at a directory holding only a
`job.yaml`. -/
theorem claim_C9_amended_witness :
    ∃ e, LoadCompositionsFromDir [jobOnlyDir] = Except.error e :=
  claim_C9_amended_job_without_schema_fails [jobOnlyDir] jobOnlyDir
    (List.mem_singleton.mpr rfl) rfl rfl

/-- C10.  The planner's template cache is keyed by composition type and
step name only.  When a job carries two steps with the same name but
different `run` strings, the first step's parse is cached and the second
step's rendering executes that cached template: the second rendered
`run` equals the rendering of the first step's `run` string, and the
second step's own `run` string is never parsed. -/
theorem claim_C10_cached_template_reused
    (cache : AList (List Seg)) (inst : ComponentInstance) (n r1 r2 : String)
    (t1 t2 f1 f2 : String) (ry1 ry2 : Int) (tmpl : List Seg) (out : List Char)
    (hmiss : lookupA cache (inst.type ++ ":" ++ n) = none)
    (hparse : parseTmpl r1.toList = some tmpl)
    (hexec : execSegs (Planner.buildContext inst) tmpl = Except.ok out) :
    Planner.renderSteps cache
      [{ name := n, run := r1, timeout := t1, retry := ry1, onFailure := f1 },
       { name := n, run := r2, timeout := t2, retry := ry2, onFailure := f2 }] inst =
      Except.ok
        ([{ name := n, run := String.mk out, timeout := t1, retry := ry1, onFailure := f1 },
          { name := n, run := String.mk out, timeout := t2, retry := ry2, onFailure := f2 }],
         insertA cache (inst.type ++ ":" ++ n) tmpl) := by
  have hhit : lookupA (insertA cache (inst.type ++ ":" ++ n) tmpl) (inst.type ++ ":" ++ n) =
      some tmpl := by
    rw [lookupA_insertA]
    simp
  unfold Planner.renderSteps
  simp only [Planner.renderStepsGo, hmiss, hparse, hexec, hhit]

/-- Instance used to exercise the cache-collision behavior. -/
def instC10 : ComponentInstance := {
  componentName := "web"
  environment := "prod"
  type := "helm"
  domain := ""
  labels := []
  inputs := [("image", Value.str "w:1")]
  policies := []
  dependsOn := []
  enabled := true
  path := "./" }

def stepC10a : Step :=
  { name := "s", run := "echo one \x7b\x7b.image\x7d\x7d", timeout := "", retry := 0,
    onFailure := "" }

def stepC10b : Step :=
  { name := "s", run := "echo two", timeout := "", retry := 0, onFailure := "" }

/-- Parse of the first step's `run` template. -/
def tmplC10 : List Seg :=
  [Seg.lit "echo one ".toList, Seg.fld ["image"], Seg.lit []]

/-- Looking up a key after `interpolateProperties` interpolates the
stored value. -/
theorem lookupA_interpolateProperties (props : AList Value) (e g c k : String) :
    lookupA (interpolateProperties props e g c) k =
      (lookupA props k).map (interpolateValue e g c) := by
  induction props with
  | nil => rfl
  | cons hd tl ih =>
    obtain ⟨k₀, v₀⟩ := hd
    simp only [interpolateProperties, List.map_cons, lookupA]
    by_cases h : k₀ = k
    · simp [h]
    · simp only [if_neg h]
      simpa [interpolateProperties] using ih

/-- The non-`path` entries of a defaults map, in storage order. -/
def nonPathEntries (entries : AList Value) : AList Value :=
  entries.filter (fun kv => decide (kv.1 ≠ "path"))

theorem mergeDefaultsLoop_fst (entries : AList Value) (base : AList Value) (p : String) :
    (mergeDefaultsLoop entries (base, p)).1 = insertAllA base (nonPathEntries entries) := by
  induction entries generalizing base p with
  | nil => rfl
  | cons hd tl ih =>
    obtain ⟨k₀, v₀⟩ := hd
    by_cases h : k₀ = "path"
    · subst h
      have hdrop : nonPathEntries (("path", v₀) :: tl) = nonPathEntries tl := by
        simp [nonPathEntries, List.filter]
      rw [hdrop]
      cases v₀ with
      | str sp => exact ih base sp
      | int n => exact ih base p
      | bool b => exact ih base p
      | strMap m => exact ih base p
    · have hkeep : nonPathEntries ((k₀, v₀) :: tl) = (k₀, v₀) :: nonPathEntries tl := by
        simp [nonPathEntries, List.filter, h]
      have hstep : (mergeDefaultsLoop ((k₀, v₀) :: tl) (base, p)).1 =
          (mergeDefaultsLoop tl (insertA base k₀ v₀, p)).1 := by
        simp only [mergeDefaultsLoop, List.foldl_cons, if_neg h]
      rw [hstep, hkeep, ih]
      rfl

theorem lookupA_nonPathEntries (entries : AList Value) (k : String) (hk : k ≠ "path") :
    lookupA (nonPathEntries entries) k = lookupA entries k := by
  induction entries with
  | nil => rfl
  | cons hd tl ih =>
    obtain ⟨k₀, v₀⟩ := hd
    by_cases h : k₀ = "path"
    · subst h
      have hdrop : nonPathEntries (("path", v₀) :: tl) = nonPathEntries tl := by
        simp [nonPathEntries, List.filter]
      rw [hdrop, ih]
      simp only [lookupA]
      rw [if_neg (fun hh => hk hh.symm)]
    · have hkeep : nonPathEntries ((k₀, v₀) :: tl) = (k₀, v₀) :: nonPathEntries tl := by
        simp [nonPathEntries, List.filter, h]
      rw [hkeep]
      simp only [lookupA]
      by_cases h₂ : k₀ = k
      · simp [h₂]
      · simp [h₂, ih]

theorem keysA_nonPathEntries_nodup (entries : AList Value)
    (h : (keysA entries).Nodup) : (keysA (nonPathEntries entries)).Nodup :=
  List.Nodup.sublist (List.Sublist.map Prod.fst (List.filter_sublist entries)) h

theorem orElse_none_right {α : Type} (x : Option α) : x.orElse (fun _ => none) = x := by
  cases x <;> rfl

/-- For a key other than `path`, the final path-insertion chain of
`mergeProperties` never changes the looked-up value. -/
theorem lookupA_pathChain (m : AList Value) (cp gp ep k : String) (hk : k ≠ "path") :
    lookupA (if cp ≠ "" then insertA m "path" (Value.str cp)
      else if gp ≠ "" then insertA m "path" (Value.str gp)
      else if ep ≠ "" then insertA m "path" (Value.str ep)
      else m) k = lookupA m k := by
  have hne : ¬("path" = k) := fun h => hk h.symm
  by_cases h1 : cp ≠ "" <;> by_cases h2 : gp ≠ "" <;> by_cases h3 : ep ≠ "" <;>
    simp [h1, h2, h3, lookupA_insertA, hne]

/-- Component with a component-level input whose value holds a template
variable. -/
def compGreet : Component :=
  { name := "web", type := "helm", domain := "", enabled := true, path := "",
    inputs := [("greeting", Value.str "hello \x7b\x7b.environment\x7d\x7d")],
    labels := [], dependsOn := [] }

def intentGreet : Intent := {
  apiVersion := "sourceplane.io/v1"
  kind := "Intent"
  metadata := demoMeta
  groups := []
  environments := [("prod", mkEnv ["web"])]
  components := [compGreet] }

/-- C4, counterexample.  The claim says the instance's merged `inputs[k]`
equals the component value when the component declares `k`.  It equals
the component value only after template interpolation: a component input
`hello \x7b\x7b.environment\x7d\x7d` reaches the instance as
`hello prod`, which differs from the declared value. -/
theorem claim_C4_counterexample_value_interpolated :
    lookupA compGreet.inputs "greeting" =
      some (Value.str "hello \x7b\x7b.environment\x7d\x7d") ∧
    ((NormalizeIntent intentGreet).toOption.map (fun n =>
        (Expand n).map (fun kv => (kv.1, kv.2.map (fun inst => lookupA inst.inputs "greeting"))))) =
      some [("prod", [some (Value.str "hello prod")])] ∧
    Value.str "hello prod" ≠ Value.str "hello \x7b\x7b.environment\x7d\x7d" := by
  exact ⟨rfl, by decide, by decide⟩

/-- Spec §4.4 merge precedence, stated from the spec words: the raw value
for a key comes from the component inputs when present, else the
component's group defaults, else the environment defaults. -/
def mergeSourceChain (groups : AList Group) (comp : Component) (env : Environment)
    (k : String) : Option Value :=
  (lookupA comp.inputs k).orElse (fun _ =>
    (if comp.domain ≠ "" then
      match lookupA groups comp.domain with
      | some group => lookupA group.defaults k
      | none => none
    else none).orElse (fun _ => lookupA env.defaults k))

/-- C4, amended.  For every non-`path` key, the merged inputs hold the
spec's component > group > environment precedence chain, but the stored
value is the chain value passed through template interpolation, not the
raw declared value. -/
theorem claim_C4_amended_precedence_after_interpolation (groups : AList Group)
    (comp : Component) (env : Environment) (envName compName k : String)
    (hk : k ≠ "path") (hndC : (keysA comp.inputs).Nodup)
    (hndE : (keysA env.defaults).Nodup)
    (hndG : ∀ g, lookupA groups comp.domain = some g → (keysA g.defaults).Nodup) :
    lookupA (mergeProperties groups comp env envName compName) k =
      (mergeSourceChain groups comp env k).map
        (interpolateValue envName comp.domain compName) := by
  simp only [mergeProperties]
  rw [lookupA_interpolateProperties, lookupA_pathChain _ _ _ _ _ hk,
    lookupA_insertAllA _ _ _ hndC]
  simp only [mergeSourceChain]
  congr 1
  have henv : lookupA (mergeDefaultsLoop env.defaults ([], "")).1 k =
      lookupA env.defaults k := by
    rw [mergeDefaultsLoop_fst,
      lookupA_insertAllA _ _ _ (keysA_nonPathEntries_nodup _ hndE),
      lookupA_nonPathEntries _ _ hk]
    exact orElse_none_right _
  by_cases hd : comp.domain = ""
  · simp only [hd, ne_eq, not_true_eq_false, if_false]
    rw [henv]
    rfl
  · simp only [ne_eq, hd, not_false_eq_true, if_true]
    cases hg : lookupA groups comp.domain with
    | none =>
      rw [henv]
      rfl
    | some group =>
      rw [mergeDefaultsLoop_fst,
        lookupA_insertAllA _ _ _ (keysA_nonPathEntries_nodup _ (hndG group hg)),
        lookupA_nonPathEntries _ _ hk, henv]

def gPlat : Group :=
  { policies := [],
    defaults := [("replicas", Value.int 2), ("region", Value.str "us-west-2")] }

def groupsC4 : AList Group := [("platform", gPlat)]

def compWebC4 : Component :=
  { name := "web", type := "helm", domain := "platform", enabled := true, path := "",
    inputs := [("replicas", Value.int 5)], labels := [], dependsOn := [] }

def envProdC4 : Environment :=
  { selectors := { components := ["web"], domains := [] }
    defaults := [("replicas", Value.int 10)]
    policies := [] }

/-- Witness for the amended C4 on the scenario-B shape: key `region`
falls through component inputs to the group defaults. -/
theorem claim_C4_amended_precedence_after_interpolation_witness :
    ("region" : String) ≠ "path" ∧
    (keysA compWebC4.inputs).Nodup ∧
    (keysA envProdC4.defaults).Nodup ∧
    (∀ g, lookupA groupsC4 compWebC4.domain = some g → (keysA g.defaults).Nodup) ∧
    lookupA (mergeProperties groupsC4 compWebC4 envProdC4 "prod" "web") "region" =
      (mergeSourceChain groupsC4 compWebC4 envProdC4 "region").map
        (interpolateValue "prod" compWebC4.domain "web") :=
  ⟨by decide, by decide, by decide,
    (by
      intro g hg
      have hlk : lookupA groupsC4 compWebC4.domain = some gPlat := rfl
      rw [hlk] at hg
      injection hg with h
      subst h
      decide),
    claim_C4_amended_precedence_after_interpolation groupsC4 compWebC4 envProdC4
      "prod" "web" "region" (by decide) (by decide) (by decide)
      (by
        intro g hg
        have hlk : lookupA groupsC4 compWebC4.domain = some gPlat := rfl
        rw [hlk] at hg
        injection hg with h
        subst h
        decide)⟩

theorem mergeDefaultsLoop_snd (entries : AList Value) (base : AList Value) (p0 : String)
    (hnd : (keysA entries).Nodup) :
    (mergeDefaultsLoop entries (base, p0)).2 =
      (match lookupA entries "path" with
        | some (Value.str p) => p
        | _ => p0) := by
  induction entries generalizing base p0 with
  | nil => rfl
  | cons hd tl ih =>
    obtain ⟨k₀, v₀⟩ := hd
    simp only [keysA, List.map_cons, List.nodup_cons] at hnd
    by_cases h : k₀ = "path"
    · subst h
      have hnone : lookupA tl "path" = none := lookupA_eq_none tl "path" hnd.1
      cases v₀ with
      | str sp =>
        have hstep : (mergeDefaultsLoop (("path", Value.str sp) :: tl) (base, p0)).2 =
            (mergeDefaultsLoop tl (base, sp)).2 := rfl
        rw [hstep, ih base sp hnd.2, hnone]
        rfl
      | int n =>
        have hstep : (mergeDefaultsLoop (("path", Value.int n) :: tl) (base, p0)).2 =
            (mergeDefaultsLoop tl (base, p0)).2 := rfl
        rw [hstep, ih base p0 hnd.2, hnone]
        rfl
      | bool b =>
        have hstep : (mergeDefaultsLoop (("path", Value.bool b) :: tl) (base, p0)).2 =
            (mergeDefaultsLoop tl (base, p0)).2 := rfl
        rw [hstep, ih base p0 hnd.2, hnone]
        rfl
      | strMap m =>
        have hstep : (mergeDefaultsLoop (("path", Value.strMap m) :: tl) (base, p0)).2 =
            (mergeDefaultsLoop tl (base, p0)).2 := rfl
        rw [hstep, ih base p0 hnd.2, hnone]
        rfl
    · have hstep : (mergeDefaultsLoop ((k₀, v₀) :: tl) (base, p0)).2 =
          (mergeDefaultsLoop tl (insertA base k₀ v₀, p0)).2 := by
        simp only [mergeDefaultsLoop, List.foldl_cons, if_neg h]
      rw [hstep, ih (insertA base k₀ v₀) p0 hnd.2]
      simp only [lookupA, if_neg h]

theorem lookupA_nonPathEntries_path (entries : AList Value) :
    lookupA (nonPathEntries entries) "path" = none := by
  induction entries with
  | nil => rfl
  | cons hd tl ih =>
    obtain ⟨k₀, v₀⟩ := hd
    by_cases h : k₀ = "path"
    · subst h
      have hdrop : nonPathEntries (("path", v₀) :: tl) = nonPathEntries tl := by
        simp [nonPathEntries, List.filter]
      rw [hdrop, ih]
    · have hkeep : nonPathEntries ((k₀, v₀) :: tl) = (k₀, v₀) :: nonPathEntries tl := by
        simp [nonPathEntries, List.filter, h]
      rw [hkeep]
      simp only [lookupA, if_neg h, ih]

theorem keysA_eraseA {α : Type} (m : AList α) (k : String) : k ∉ keysA (eraseA m k) := by
  induction m with
  | nil => simp [eraseA, keysA]
  | cons hd tl ih =>
    obtain ⟨k₀, v₀⟩ := hd
    by_cases h : k₀ = k
    · simpa [eraseA, h] using ih
    · simp only [eraseA, if_neg h, keysA, List.map_cons, List.mem_cons, not_or]
      exact ⟨fun hh => h hh.symm, ih⟩

theorem lookupA_none_not_mem {α : Type} (m : AList α) (k : String)
    (h : lookupA m k = none) : k ∉ keysA m := by
  induction m with
  | nil => simp [keysA]
  | cons hd tl ih =>
    obtain ⟨k₀, v₀⟩ := hd
    simp only [lookupA] at h
    by_cases h₀ : k₀ = k
    · rw [if_pos h₀] at h
      exact absurd h (by simp)
    · rw [if_neg h₀] at h
      simp only [keysA, List.map_cons, List.mem_cons, not_or]
      exact ⟨fun hh => h₀ hh.symm, ih h⟩

/-- The `path` string a component inherits from its group defaults, per
the spec's wording (empty when unset or not a string). -/
def groupPathOf (groups : AList Group) (comp : Component) : String :=
  if comp.domain ≠ "" then
    match lookupA groups comp.domain with
    | some g =>
      match lookupA g.defaults "path" with
      | some (Value.str p) => p
      | _ => ""
    | none => ""
  else ""

/-- The `path` string of the environment defaults, per the spec's wording
(empty when unset or not a string). -/
def envPathOf (env : Environment) : String :=
  match lookupA env.defaults "path" with
  | some (Value.str p) => p
  | _ => ""

/-- Amended path-priority chain, stated in spec style from the source
behaviour: `component.path`, else the group path, else the environment
path, else a string `path` entry of the component inputs, else `./`.  A
non-string inputs `path` with an otherwise empty chain yields the empty
path and is not moved out of the inputs. -/
def resolvedPathCode (groups : AList Group) (comp : Component) (env : Environment) : String :=
  if comp.path ≠ "" then comp.path
  else if groupPathOf groups comp ≠ "" then groupPathOf groups comp
  else if envPathOf env ≠ "" then envPathOf env
  else
    match lookupA comp.inputs "path" with
    | some (Value.str p) => p
    | some _ => ""
    | none => "./"

theorem mergeProperties_groupPath (groups : AList Group) (comp : Component)
    (st1fst : AList Value)
    (hndG : ∀ g, lookupA groups comp.domain = some g → (keysA g.defaults).Nodup) :
    (if comp.domain ≠ "" then
      match lookupA groups comp.domain with
      | some group => mergeDefaultsLoop group.defaults (st1fst, "")
      | none => (st1fst, "")
    else (st1fst, "")).2 = groupPathOf groups comp := by
  by_cases hdm : comp.domain = ""
  · simp [hdm, groupPathOf]
  · simp only [ne_eq, hdm, not_false_eq_true, if_true, groupPathOf]
    cases hgl : lookupA groups comp.domain with
    | none => rfl
    | some g => rw [mergeDefaultsLoop_snd _ _ _ (hndG g hgl)]

theorem mergeProperties_groupFst_path (groups : AList Group) (comp : Component)
    (st1fst : AList Value) (hb : lookupA st1fst "path" = none)
    (hndG : ∀ g, lookupA groups comp.domain = some g → (keysA g.defaults).Nodup) :
    lookupA (if comp.domain ≠ "" then
      match lookupA groups comp.domain with
      | some group => mergeDefaultsLoop group.defaults (st1fst, "")
      | none => (st1fst, "")
    else (st1fst, "")).1 "path" = none := by
  by_cases hdm : comp.domain = ""
  · simp [hdm, hb]
  · simp only [ne_eq, hdm, not_false_eq_true, if_true]
    cases hgl : lookupA groups comp.domain with
    | none => simpa using hb
    | some g =>
      rw [mergeDefaultsLoop_fst,
        lookupA_insertAllA _ _ _ (keysA_nonPathEntries_nodup _ (hndG g hgl)),
        lookupA_nonPathEntries_path]
      exact hb

/-- The `path` entry of the merged properties follows the source chain
component path > group path > environment path > component inputs, with
the winning value template-interpolated like every merged value. -/
theorem lookupA_mergeProperties_path (groups : AList Group) (comp : Component)
    (env : Environment) (envName compName : String)
    (hndC : (keysA comp.inputs).Nodup) (hndE : (keysA env.defaults).Nodup)
    (hndG : ∀ g, lookupA groups comp.domain = some g → (keysA g.defaults).Nodup) :
    lookupA (mergeProperties groups comp env envName compName) "path" =
      (if comp.path ≠ "" then some (Value.str comp.path)
        else if groupPathOf groups comp ≠ "" then
          some (Value.str (groupPathOf groups comp))
        else if envPathOf env ≠ "" then some (Value.str (envPathOf env))
        else lookupA comp.inputs "path").map
        (interpolateValue envName comp.domain compName) := by
  have hEfst : lookupA (mergeDefaultsLoop env.defaults (([] : AList Value), "")).1 "path" =
      none := by
    rw [mergeDefaultsLoop_fst,
      lookupA_insertAllA _ _ _ (keysA_nonPathEntries_nodup _ hndE),
      lookupA_nonPathEntries_path]
    rfl
  have hEsnd : (mergeDefaultsLoop env.defaults (([] : AList Value), "")).2 = envPathOf env := by
    rw [mergeDefaultsLoop_snd _ _ _ hndE]
    rfl
  simp only [mergeProperties]
  rw [lookupA_interpolateProperties]
  congr 1
  rw [mergeProperties_groupPath groups comp _ hndG, hEsnd]
  by_cases hp : comp.path ≠ ""
  · rw [if_pos hp, if_pos hp, lookupA_insertA]
    simp
  · rw [if_neg hp, if_neg hp]
    by_cases hgp : groupPathOf groups comp ≠ ""
    · rw [if_pos hgp, if_pos hgp, lookupA_insertA]
      simp
    · rw [if_neg hgp, if_neg hgp]
      by_cases hep : envPathOf env ≠ ""
      · rw [if_pos hep, if_pos hep, lookupA_insertA]
        simp
      · rw [if_neg hep, if_neg hep, lookupA_insertAllA _ _ _ hndC,
          mergeProperties_groupFst_path groups comp _ hEfst hndG]
        exact orElse_none_right _

/-- The component instance built by `expandInstance` for a known enabled
component, parameterised by its resolved path and remaining inputs. -/
def instOf (n : NormalizedIntent) (envName : String) (compName : String)
    (comp : Component) (path : String) (inputs : AList Value) : ComponentInstance :=
  { componentName := compName
    environment := envName
    type := comp.type
    domain := comp.domain
    labels := comp.labels
    enabled := comp.enabled
    inputs := inputs
    path := path
    policies := resolvePolicies n.groups n.environments comp envName
    dependsOn := resolveDependencies comp envName }

theorem expandInstance_path_shape (n : NormalizedIntent) (envName : String)
    (env : Environment) (compName : String) (comp : Component)
    (hcomp : lookupA n.componentIndex compName = some comp)
    (hen : comp.enabled = true) :
    expandInstance n envName env compName =
      (match lookupA (mergeProperties n.groups comp env envName compName) "path" with
        | some (Value.str p) =>
          some (instOf n envName compName comp p
            (eraseA (mergeProperties n.groups comp env envName compName) "path"))
        | some _ =>
          some (instOf n envName compName comp ""
            (mergeProperties n.groups comp env envName compName))
        | none =>
          some (instOf n envName compName comp "./"
            (mergeProperties n.groups comp env envName compName))) := by
  simp only [expandInstance, hcomp]
  rw [if_neg (show ¬((!comp.enabled) = true) from by rw [hen]; decide)]
  cases hlk : lookupA (mergeProperties n.groups comp env envName compName) "path" with
  | none => rfl
  | some v => cases v <;> rfl

/-- Component whose inputs carry a string `path` entry. -/
def compPathInput : Component :=
  { name := "web", type := "helm", domain := "", enabled := true, path := "",
    inputs := [("path", Value.str "custom/dir")], labels := [], dependsOn := [] }

def intentPathInput : Intent := {
  apiVersion := "sourceplane.io/v1"
  kind := "Intent"
  metadata := demoMeta
  groups := []
  environments := [("prod", mkEnv ["web"])]
  components := [compPathInput] }

/-- Component whose inputs carry a non-string `path` entry. -/
def compPathInt : Component :=
  { name := "api", type := "helm", domain := "", enabled := true, path := "",
    inputs := [("path", Value.int 7)], labels := [], dependsOn := [] }

def intentPathInt : Intent := {
  apiVersion := "sourceplane.io/v1"
  kind := "Intent"
  metadata := demoMeta
  groups := []
  environments := [("prod", mkEnv ["api"])]
  components := [compPathInt] }

/-- C7, counterexample.  The claim's chain ends at `./` and keeps `path`
out of the merged inputs.  A component-inputs entry `path: custom/dir`
(component path, group path and environment path all unset) yields the
instance path `custom/dir` instead of `./`; a non-string inputs entry
`path: 7` yields the empty instance path and stays in the merged
inputs. -/
theorem claim_C7_counterexample_inputs_path_leak :
    ((NormalizeIntent intentPathInput).toOption.map (fun n =>
        (Expand n).map (fun kv =>
          (kv.1, kv.2.map (fun inst => (inst.path, lookupA inst.inputs "path")))))) =
      some [("prod", [("custom/dir", none)])] ∧
    ("custom/dir" : String) ≠ "./" ∧
    ((NormalizeIntent intentPathInt).toOption.map (fun n =>
        (Expand n).map (fun kv =>
          (kv.1, kv.2.map (fun inst => (inst.path, lookupA inst.inputs "path")))))) =
      some [("prod", [("", some (Value.int 7))])] ∧
    ("" : String) ≠ "./" := by
  exact ⟨by decide, by decide, by decide, by decide⟩

/-- C7, amended.  For an enabled component whose inputs hold no `path`
entry or a clean string one, the instance path follows the source chain
`component.path` > group path > environment path > inputs path > `./`,
and `path` is not a key of the instance inputs. -/
theorem claim_C7_amended_path_priority (n : NormalizedIntent) (envName : String)
    (env : Environment) (compName : String) (comp : Component)
    (hcomp : lookupA n.componentIndex compName = some comp)
    (hen : comp.enabled = true)
    (hndC : (keysA comp.inputs).Nodup) (hndE : (keysA env.defaults).Nodup)
    (hndG : ∀ g, lookupA n.groups comp.domain = some g → (keysA g.defaults).Nodup)
    (hclC : cleanStr comp.path)
    (hclG : cleanStr (groupPathOf n.groups comp))
    (hclE : cleanStr (envPathOf env))
    (hinp : lookupA comp.inputs "path" = none ∨
      ∃ p, lookupA comp.inputs "path" = some (Value.str p) ∧ cleanStr p) :
    ∃ inst, expandInstance n envName env compName = some inst ∧
      inst.path = resolvedPathCode n.groups comp env ∧
      "path" ∉ keysA inst.inputs := by
  have hshape := expandInstance_path_shape n envName env compName comp hcomp hen
  have hlk := lookupA_mergeProperties_path n.groups comp env envName compName hndC hndE hndG
  by_cases hp : comp.path ≠ ""
  · rw [if_pos hp, Option.map_some'] at hlk
    simp only [interpolateValue] at hlk
    rw [interpolateString_clean _ _ _ _ hclC] at hlk
    rw [hlk] at hshape
    refine ⟨_, hshape, ?_, keysA_eraseA _ _⟩
    show comp.path = resolvedPathCode n.groups comp env
    rw [resolvedPathCode, if_pos hp]
  · rw [if_neg hp] at hlk
    by_cases hgp : groupPathOf n.groups comp ≠ ""
    · rw [if_pos hgp, Option.map_some'] at hlk
      simp only [interpolateValue] at hlk
      rw [interpolateString_clean _ _ _ _ hclG] at hlk
      rw [hlk] at hshape
      refine ⟨_, hshape, ?_, keysA_eraseA _ _⟩
      show groupPathOf n.groups comp = resolvedPathCode n.groups comp env
      rw [resolvedPathCode, if_neg hp, if_pos hgp]
    · rw [if_neg hgp] at hlk
      by_cases hep : envPathOf env ≠ ""
      · rw [if_pos hep, Option.map_some'] at hlk
        simp only [interpolateValue] at hlk
        rw [interpolateString_clean _ _ _ _ hclE] at hlk
        rw [hlk] at hshape
        refine ⟨_, hshape, ?_, keysA_eraseA _ _⟩
        show envPathOf env = resolvedPathCode n.groups comp env
        rw [resolvedPathCode, if_neg hp, if_neg hgp, if_pos hep]
      · rw [if_neg hep] at hlk
        cases hinp with
        | inl hnone =>
          rw [hnone] at hlk
          rw [hlk] at hshape
          refine ⟨_, hshape, ?_, lookupA_none_not_mem _ _ hlk⟩
          show "./" = resolvedPathCode n.groups comp env
          rw [resolvedPathCode, if_neg hp, if_neg hgp, if_neg hep, hnone]
        | inr hsome =>
          obtain ⟨p, hpin, hclP⟩ := hsome
          rw [hpin, Option.map_some'] at hlk
          simp only [interpolateValue] at hlk
          rw [interpolateString_clean _ _ _ _ hclP] at hlk
          rw [hlk] at hshape
          refine ⟨_, hshape, ?_, keysA_eraseA _ _⟩
          show p = resolvedPathCode n.groups comp env
          rw [resolvedPathCode, if_neg hp, if_neg hgp, if_neg hep, hpin]

def gC7 : Group := { policies := [], defaults := [("path", Value.str "charts/web")] }

def compC7 : Component :=
  { name := "web", type := "helm", domain := "platform", enabled := true, path := "",
    inputs := [("replicas", Value.int 5)], labels := [], dependsOn := [] }

def envC7 : Environment :=
  { selectors := { components := ["web"], domains := [] }
    defaults := [("path", Value.str "env/root")]
    policies := [] }

def nC7 : NormalizedIntent := {
  metadata := demoMeta
  groups := [("platform", gC7)]
  environments := [("prod", envC7)]
  components := [("web", compC7)]
  componentIndex := [("web", compC7)] }

/-- Witness for the amended C7: the group path `charts/web` wins over the
environment path because the component path is empty. -/
theorem claim_C7_amended_path_priority_witness :
    lookupA nC7.componentIndex "web" = some compC7 ∧
    compC7.enabled = true ∧
    (keysA compC7.inputs).Nodup ∧
    (keysA envC7.defaults).Nodup ∧
    (∀ g, lookupA nC7.groups compC7.domain = some g → (keysA g.defaults).Nodup) ∧
    cleanStr compC7.path ∧
    cleanStr (groupPathOf nC7.groups compC7) ∧
    cleanStr (envPathOf envC7) ∧
    (lookupA compC7.inputs "path" = none ∨
      ∃ p, lookupA compC7.inputs "path" = some (Value.str p) ∧ cleanStr p) ∧
    (∃ inst, expandInstance nC7 "prod" envC7 "web" = some inst ∧
      inst.path = resolvedPathCode nC7.groups compC7 envC7 ∧
      "path" ∉ keysA inst.inputs) :=
  ⟨rfl, rfl, by decide, by decide,
    (by
      intro g hg
      have hlk : lookupA nC7.groups compC7.domain = some gC7 := rfl
      rw [hlk] at hg
      injection hg with h
      subst h
      decide),
    by decide, by decide, by decide, Or.inl rfl,
    claim_C7_amended_path_priority nC7 "prod" envC7 "web" compC7 rfl rfl
      (by decide) (by decide)
      (by
        intro g hg
        have hlk : lookupA nC7.groups compC7.domain = some gC7 := rfl
        rw [hlk] at hg
        injection hg with h
        subst h
        decide)
      (by decide) (by decide) (by decide) (Or.inl rfl)⟩

theorem closableL_append_false (a b : List Char) (h : closableL (a ++ b) = false) :
    closableL a = false := by
  induction a with
  | nil => rfl
  | cons c rest ih =>
    rw [List.cons_append, closableL_cons] at h
    rw [closableL_cons]
    by_cases h1 : c = '}' ∧ (rest ++ b).head? = some '}'
    · rw [if_pos h1] at h
      exact absurd h (by decide)
    · rw [if_neg h1] at h
      have h1x : ¬(c = '}' ∧ rest.head? = some '}') := by
        intro hcon
        apply h1
        cases rest with
        | nil => simp at hcon
        | cons r rs => exact ⟨hcon.1, hcon.2⟩
      rw [if_neg h1x]
      by_cases h2 : c = '\n'
      · rw [if_pos h2]
      · rw [if_neg h2] at h
        rw [if_neg h2]
        exact ih h

theorem hasResidualL_prefix_false (a b : List Char)
    (h : hasResidualL (a ++ b) = false) : hasResidualL a = false := by
  induction a with
  | nil => rfl
  | cons c rest ih =>
    rw [List.cons_append, hasResidualL_cons] at h
    rw [hasResidualL_cons]
    by_cases h1 : c = '{' ∧ (rest ++ b).head? = some '{'
    · rw [if_pos h1] at h
      have hparts := Bool.or_eq_false_iff.mp h
      cases rest with
      | nil =>
        rw [if_neg (by simp : ¬(c = '{' ∧ ([] : List Char).head? = some '{'))]
        rfl
      | cons r rs =>
        rw [if_pos (⟨h1.1, h1.2⟩ : c = '{' ∧ (r :: rs).head? = some '{')]
        have hcl : closableL rs = false := closableL_append_false rs b hparts.1
        have hre : hasResidualL (r :: rs) = false := ih hparts.2
        simp [hcl, hre]
    · rw [if_neg h1] at h
      have h1x : ¬(c = '{' ∧ rest.head? = some '{') := by
        intro hcon
        apply h1
        cases rest with
        | nil => simp at hcon
        | cons r rs => exact ⟨hcon.1, hcon.2⟩
      rw [if_neg h1x]
      exact ih h

theorem hasResidualL_suffix_false (a b : List Char)
    (h : hasResidualL (a ++ b) = false) : hasResidualL b = false := by
  induction a with
  | nil => exact h
  | cons c rest ih =>
    rw [List.cons_append, hasResidualL_cons] at h
    by_cases h1 : c = '{' ∧ (rest ++ b).head? = some '{'
    · rw [if_pos h1] at h
      exact ih (Bool.or_eq_false_iff.mp h).2
    · rw [if_neg h1] at h
      exact ih h

theorem hasResidualL_trimL (l : List Char) (h : hasResidualL l = false) :
    hasResidualL (trimL l) = false := by
  have h1 : hasResidualL (l.dropWhile isSpaceChar) = false := by
    refine hasResidualL_suffix_false (l.takeWhile isSpaceChar) _ ?_
    rw [List.takeWhile_append_dropWhile]
    exact h
  have h2 : l.dropWhile isSpaceChar =
      ((l.dropWhile isSpaceChar).reverse.dropWhile isSpaceChar).reverse ++
        ((l.dropWhile isSpaceChar).reverse.takeWhile isSpaceChar).reverse := by
    calc l.dropWhile isSpaceChar
        = (l.dropWhile isSpaceChar).reverse.reverse := (List.reverse_reverse _).symm
      _ = ((l.dropWhile isSpaceChar).reverse.takeWhile isSpaceChar ++
            (l.dropWhile isSpaceChar).reverse.dropWhile isSpaceChar).reverse := by
          rw [List.takeWhile_append_dropWhile]
      _ = _ := by rw [List.reverse_append]
  unfold trimL
  exact hasResidualL_prefix_false _
    ((l.dropWhile isSpaceChar).reverse.takeWhile isSpaceChar).reverse
    (by rw [← h2]; exact h1)

/-- The interpolation pass leaves no residual template match in its
output: the strip pass removes every match and trimming only shortens the
text. -/
theorem interpolateString_no_residual (s envName groupName compName : String) :
    hasResidualL (interpolateString s envName groupName compName).toList = false := by
  have key : ∀ l : List Char, hasResidualL (String.mk (trimL (stripL l))).toList = false :=
    fun l => hasResidualL_trimL _ (hasResidualL_stripL _)
  unfold interpolateString
  exact key _

theorem lookupA_eraseA_some {α : Type} (m : AList α) (key k : String) (v : α)
    (h : lookupA (eraseA m key) k = some v) : lookupA m k = some v := by
  induction m with
  | nil => simp [eraseA, lookupA] at h
  | cons hd tl ih =>
    obtain ⟨k₀, v₀⟩ := hd
    by_cases h0 : k₀ = key
    · rw [eraseA, if_pos h0] at h
      rw [lookupA]
      by_cases hk : k₀ = k
      · exfalso
        have hkey : key = k := by rw [← h0, hk]
        rw [← hkey] at h
        rw [lookupA_eq_none (eraseA tl key) key (keysA_eraseA tl key)] at h
        exact Option.noConfusion h
      · rw [if_neg hk]
        exact ih h
    · rw [eraseA, if_neg h0] at h
      rw [lookupA] at h ⊢
      by_cases hk : k₀ = k
      · rw [if_pos hk] at h ⊢
        exact h
      · rw [if_neg hk] at h ⊢
        exact ih h

theorem lookupA_interpolate_str (props : AList Value) (e g c k : String) (s : String)
    (h : lookupA (interpolateProperties props e g c) k = some (Value.str s)) :
    hasResidualL s.toList = false := by
  rw [lookupA_interpolateProperties] at h
  cases hr : lookupA props k with
  | none => rw [hr] at h; simp at h
  | some v =>
    rw [hr, Option.map_some'] at h
    injection h with hv
    cases v with
    | str r =>
      simp only [interpolateValue] at hv
      injection hv with hs
      rw [← hs]
      exact interpolateString_no_residual r e g c
    | int n => simp [interpolateValue] at hv
    | bool b => simp [interpolateValue] at hv
    | strMap m => simp [interpolateValue] at hv

theorem mergeProperties_str_no_residual (groups : AList Group) (comp : Component)
    (env : Environment) (envName compName k : String) (s : String)
    (h : lookupA (mergeProperties groups comp env envName compName) k =
      some (Value.str s)) : hasResidualL s.toList = false := by
  simp only [mergeProperties] at h
  exact lookupA_interpolate_str _ _ _ _ _ _ h

/-- Every top-level string value of an expanded instance's merged inputs
is free of residual template matches. -/
theorem expandInstance_inputs_no_residual (n : NormalizedIntent) (envName : String)
    (env : Environment) (compName : String) (inst : ComponentInstance)
    (h : expandInstance n envName env compName = some inst)
    (k : String) (s : String)
    (hlk : lookupA inst.inputs k = some (Value.str s)) :
    hasResidualL s.toList = false := by
  simp only [expandInstance] at h
  cases hc : lookupA n.componentIndex compName with
  | none =>
    simp only [hc] at h
    exact Option.noConfusion h
  | some comp =>
    simp only [hc] at h
    by_cases he : (!comp.enabled) = true
    · rw [if_pos he] at h
      exact Option.noConfusion h
    · rw [if_neg he] at h
      cases hml : lookupA (mergeProperties n.groups comp env envName compName) "path" with
      | none =>
        simp only [hml] at h
        injection h with h1
        subst h1
        exact mergeProperties_str_no_residual _ _ _ _ _ _ _ hlk
      | some v =>
        simp only [hml] at h
        cases v with
        | str p =>
          injection h with h1
          subst h1
          exact mergeProperties_str_no_residual _ _ _ _ _ _ _
            (lookupA_eraseA_some _ _ _ _ hlk)
        | int m =>
          injection h with h1
          subst h1
          exact mergeProperties_str_no_residual _ _ _ _ _ _ _ hlk
        | bool m =>
          injection h with h1
          subst h1
          exact mergeProperties_str_no_residual _ _ _ _ _ _ _ hlk
        | strMap m =>
          injection h with h1
          subst h1
          exact mergeProperties_str_no_residual _ _ _ _ _ _ _ hlk

/-- Does the list contain an open `\x7b\x7b` delimiter? -/
def hasOpenL : List Char → Bool
  | [] => false
  | c :: rest => if c = '{' ∧ rest.head? = some '{' then true else hasOpenL rest

theorem hasOpenL_cons (c : Char) (rest : List Char) :
    hasOpenL (c :: rest) =
      if c = '{' ∧ rest.head? = some '{' then true else hasOpenL rest := rfl

theorem hasResidualL_of_no_open (l : List Char) (h : hasOpenL l = false) :
    hasResidualL l = false := by
  induction l with
  | nil => rfl
  | cons c rest ih =>
    rw [hasOpenL_cons] at h
    by_cases hc : c = '{' ∧ rest.head? = some '{'
    · rw [if_pos hc] at h
      exact absurd h (by decide)
    · rw [if_neg hc] at h
      rw [hasResidualL_cons, if_neg hc]
      exact ih h

theorem hasOpenL_append_no_brace (a b : List Char) (ha : '{' ∉ a)
    (hb : hasOpenL b = false) : hasOpenL (a ++ b) = false := by
  induction a with
  | nil => simpa using hb
  | cons c rest ih =>
    simp only [List.mem_cons, not_or] at ha
    rw [List.cons_append, hasOpenL_cons]
    rw [if_neg (fun hcon => ha.1 hcon.1.symm)]
    exact ih ha.2

theorem hasOpenL_append_guard (a b : List Char)
    (ha : hasOpenL (a ++ ['{']) = false) (hb : hasOpenL b = false) :
    hasOpenL (a ++ b) = false := by
  induction a with
  | nil => simpa using hb
  | cons c rest ih =>
    rw [List.cons_append, hasOpenL_cons] at ha
    rw [List.cons_append, hasOpenL_cons]
    by_cases hc1 : c = '{' ∧ (rest ++ ['{']).head? = some '{'
    · rw [if_pos hc1] at ha
      exact absurd ha (by decide)
    · rw [if_neg hc1] at ha
      by_cases hc2 : c = '{' ∧ (rest ++ b).head? = some '{'
      · exfalso
        apply hc1
        refine ⟨hc2.1, ?_⟩
        cases rest with
        | nil => rfl
        | cons d ds => exact hc2.2
      · rw [if_neg hc2]
        exact ih ha

theorem splitOpen_fst_nil (l : List Char) (r : List Char)
    (h1 : (splitOpen l).1 = []) (h2 : (splitOpen l).2 = some r) :
    l.head? = some '{' := by
  cases l with
  | nil => simp [splitOpen] at h2
  | cons c rest =>
    by_cases hc : c = '{' ∧ rest.head? = some '{'
    · simp [hc.1]
    · simp only [splitOpen, if_neg hc] at h1
      simp at h1

theorem splitOpen_fst_head (l : List Char) :
    (splitOpen l).1 = [] ∨ (splitOpen l).1.head? = l.head? := by
  cases l with
  | nil => exact Or.inl rfl
  | cons c rest =>
    by_cases hc : c = '{' ∧ rest.head? = some '{'
    · left
      simp [splitOpen, hc]
    · right
      simp [splitOpen, hc]

theorem splitOpen_none_wf (l : List Char) (h : (splitOpen l).2 = none) :
    hasOpenL (splitOpen l).1 = false := by
  induction l with
  | nil => rfl
  | cons c rest ih =>
    by_cases hc : c = '{' ∧ rest.head? = some '{'
    · simp [splitOpen, hc] at h
    · simp only [splitOpen, if_neg hc] at h ⊢
      rw [hasOpenL_cons]
      by_cases hcc : c = '{' ∧ (splitOpen rest).1.head? = some '{'
      · exfalso
        rcases splitOpen_fst_head rest with hnil | hhead
        · rw [hnil] at hcc
          simp at hcc
        · rw [hhead] at hcc
          exact hc ⟨hcc.1, hcc.2⟩
      · rw [if_neg hcc]
        exact ih h

theorem splitOpen_some_wf (l : List Char) (r : List Char)
    (h : (splitOpen l).2 = some r) :
    hasOpenL ((splitOpen l).1 ++ ['{']) = false := by
  induction l with
  | nil => simp [splitOpen] at h
  | cons c rest ih =>
    by_cases hc : c = '{' ∧ rest.head? = some '{'
    · simp only [splitOpen, if_pos hc]
      decide
    · simp only [splitOpen, if_neg hc] at h ⊢
      have hr := ih h
      rw [List.cons_append, hasOpenL_cons]
      by_cases hcc : c = '{' ∧ ((splitOpen rest).1 ++ ['{']).head? = some '{'
      · exfalso
        cases hnil : (splitOpen rest).1 with
        | nil =>
          exact hc ⟨hcc.1, splitOpen_fst_nil rest r hnil h⟩
        | cons d ds =>
          rcases splitOpen_fst_head rest with hnil2 | hhead
          · rw [hnil] at hnil2
            exact List.noConfusion hnil2
          · rw [hnil] at hhead
            have hd : d = '{' := by
              have hx := hcc.2
              rw [hnil] at hx
              simpa using hx
            refine hc ⟨hcc.1, ?_⟩
            rw [← hhead, hd]
            rfl
      · rw [if_neg hcc]
        exact hr

/-- Well-formedness of a parsed segment list: no literal contains an open
delimiter, and no literal that is followed by another segment ends with a
brace (so concatenation with brace-free substitutions cannot create an
open delimiter). -/
def segsWF : List Seg → Prop
  | [] => True
  | Seg.fld _ :: rest => segsWF rest
  | Seg.lit s :: [] => hasOpenL s = false
  | Seg.lit s :: r :: rest => hasOpenL (s ++ ['{']) = false ∧ segsWF (r :: rest)

theorem parseTmplGo_wf (fuel : Nat) : ∀ (l : List Char) (segs : List Seg),
    parseTmplGo fuel l = some segs → segsWF segs := by
  induction fuel with
  | zero =>
    intro l segs h
    simp [parseTmplGo] at h
  | succ fuel ih =>
    intro l segs h
    cases hso : splitOpen l with
    | mk pre orest =>
      cases orest with
      | none =>
        simp only [parseTmplGo, hso, Option.some.injEq] at h
        subst h
        have h1 := splitOpen_none_wf l (by rw [hso])
        rw [hso] at h1
        exact h1
      | some r =>
        simp only [parseTmplGo, hso] at h
        cases hsc : splitCloseT r with
        | none => simp [hsc] at h
        | some p =>
          obtain ⟨content, rest2⟩ := p
          simp only [hsc] at h
          cases hpa : parseAction content with
          | none => simp [hpa] at h
          | some path =>
            simp only [hpa] at h
            cases hpt : parseTmplGo fuel rest2 with
            | none => simp [hpt] at h
            | some segs2 =>
              simp only [hpt, Option.some.injEq] at h
              subst h
              have h1 := splitOpen_some_wf l r (by rw [hso])
              rw [hso] at h1
              exact ⟨h1, ih rest2 segs2 hpt⟩

theorem parseTmpl_wf (l : List Char) (segs : List Seg)
    (h : parseTmpl l = some segs) : segsWF segs :=
  parseTmplGo_wf _ l segs h

/-- Rendered form of a context value is brace-free; for a string map the
inner strings are brace-free as well. -/
def valNoBrace : Value → Prop
  | Value.strMap m =>
    '{' ∉ (renderValue (Value.strMap m)).toList ∧ ∀ e ∈ m, '{' ∉ e.2.toList
  | v => '{' ∉ (renderValue v).toList

instance valNoBrace_dec (v : Value) : Decidable (valNoBrace v) :=
  match v with
  | Value.str s => by unfold valNoBrace; infer_instance
  | Value.int n => by unfold valNoBrace; infer_instance
  | Value.bool b => by unfold valNoBrace; infer_instance
  | Value.strMap m => by unfold valNoBrace; infer_instance

/-- Every context entry renders brace-free. -/
def ctxNoBrace (ctx : AList Value) : Prop := ∀ e ∈ ctx, valNoBrace e.2

instance ctxNoBrace_dec (ctx : AList Value) : Decidable (ctxNoBrace ctx) := by
  unfold ctxNoBrace
  exact List.decidableBAll _ ctx

theorem valNoBrace_render (v : Value) (h : valNoBrace v) :
    '{' ∉ (renderValue v).toList := by
  cases v with
  | strMap m => exact h.1
  | str s => exact h
  | int n => exact h
  | bool b => exact h

theorem lookupA_mem {α : Type} (m : AList α) (k : String) (v : α)
    (h : lookupA m k = some v) : (k, v) ∈ m := by
  induction m with
  | nil => simp [lookupA] at h
  | cons hd tl ih =>
    obtain ⟨k₀, v₀⟩ := hd
    rw [lookupA] at h
    by_cases h0 : k₀ = k
    · rw [if_pos h0] at h
      injection h with hv
      subst h0
      subst hv
      exact List.mem_cons_self _ _
    · rw [if_neg h0] at h
      exact List.mem_cons_of_mem _ (ih h)

theorem execField_no_brace (ctx : AList Value) (hctx : ctxNoBrace ctx)
    (p : List String) (v : String) (h : execField ctx p = Except.ok v) :
    '{' ∉ v.toList := by
  cases p with
  | nil => simp [execField] at h
  | cons f rest0 =>
    cases rest0 with
    | nil =>
      simp only [execField] at h
      cases hl : lookupA ctx f with
      | some w =>
        simp only [hl] at h
        injection h with h
        subst h
        exact valNoBrace_render w (hctx (f, w) (lookupA_mem ctx f w hl))
      | none =>
        simp only [hl] at h
        injection h with h
        subst h
        decide
    | cons g rest =>
      simp only [execField] at h
      cases hl : lookupA ctx f with
      | none =>
        simp only [hl] at h
        exact Except.noConfusion h
      | some w =>
        simp only [hl] at h
        cases w with
        | strMap m =>
          cases rest with
          | nil =>
            cases hm : lookupA m g with
            | some str =>
              simp only [hm] at h
              injection h with h
              subst h
              have hv := hctx (f, Value.strMap m) (lookupA_mem ctx f _ hl)
              exact hv.2 (g, str) (lookupA_mem m g str hm)
            | none =>
              simp only [hm] at h
              injection h with h
              subst h
              decide
          | cons q qs => exact Except.noConfusion h
        | str sv => exact Except.noConfusion h
        | int nv => exact Except.noConfusion h
        | bool bv => exact Except.noConfusion h

theorem execSegs_no_open (ctx : AList Value) (hctx : ctxNoBrace ctx) :
    ∀ (segs : List Seg) (out : List Char), segsWF segs →
      execSegs ctx segs = Except.ok out → hasOpenL out = false := by
  intro segs
  induction segs with
  | nil =>
    intro out hwf h
    simp only [execSegs, Except.ok.injEq] at h
    subst h
    rfl
  | cons hd tl ih =>
    intro out hwf h
    cases hd with
    | lit s =>
      simp only [execSegs] at h
      cases hrest : execSegs ctx tl with
      | error e =>
        simp only [hrest] at h
        exact Except.noConfusion h
      | ok r =>
        simp only [hrest, Except.ok.injEq] at h
        subst h
        cases tl with
        | nil =>
          have hr : r = [] := by
            simp only [execSegs, Except.ok.injEq] at hrest
            exact hrest.symm
          subst hr
          rw [List.append_nil]
          exact hwf
        | cons t ts =>
          have hr := ih r hwf.2 hrest
          exact hasOpenL_append_guard s r hwf.1 hr
    | fld p =>
      simp only [execSegs] at h
      cases hfld : execField ctx p with
      | error e =>
        simp only [hfld] at h
        exact Except.noConfusion h
      | ok v =>
        simp only [hfld] at h
        cases hrest : execSegs ctx tl with
        | error e =>
          simp only [hrest] at h
          exact Except.noConfusion h
        | ok r =>
          simp only [hrest, Except.ok.injEq] at h
          subst h
          have hv : '{' ∉ v.toList := execField_no_brace ctx hctx p v hfld
          have hwf2 : segsWF tl := hwf
          exact hasOpenL_append_no_brace v.toList r hv (ih r hwf2 hrest)

theorem mem_insertA {α : Type} (m : AList α) (k : String) (v : α) (e : String × α)
    (h : e ∈ insertA m k v) : e = (k, v) ∨ e ∈ m := by
  induction m with
  | nil =>
    simp only [insertA, List.mem_singleton] at h
    exact Or.inl h
  | cons hd tl ih =>
    obtain ⟨k₀, v₀⟩ := hd
    by_cases h0 : k₀ = k
    · rw [insertA, if_pos h0] at h
      rcases List.mem_cons.mp h with h1 | h1
      · exact Or.inl (by rw [h1, h0])
      · exact Or.inr (List.mem_cons_of_mem _ h1)
    · rw [insertA, if_neg h0] at h
      rcases List.mem_cons.mp h with h1 | h1
      · exact Or.inr (by rw [h1]; exact List.mem_cons_self _ _)
      · rcases ih h1 with h2 | h2
        · exact Or.inl h2
        · exact Or.inr (List.mem_cons_of_mem _ h2)

/-- When every context value renders brace-free and every cached template
is well-formed, every step rendered by the planner's step loop is free of
residual template matches. -/
theorem renderStepsGo_no_residual (ctx : AList Value) (typeName : String)
    (hctx : ctxNoBrace ctx) :
    ∀ (steps : List Step) (cache : AList (List Seg)) (outs : List RenderedStep)
      (cache2 : AList (List Seg)),
      (∀ e ∈ cache, segsWF e.2) →
      Planner.renderStepsGo ctx typeName steps cache = Except.ok (outs, cache2) →
      ∀ st ∈ outs, hasResidualL st.run.toList = false := by
  intro steps
  induction steps with
  | nil =>
    intro cache outs cache2 hwf h st hst
    simp only [Planner.renderStepsGo, Except.ok.injEq, Prod.mk.injEq] at h
    obtain ⟨h1, h2⟩ := h
    subst h1
    exact absurd hst (List.not_mem_nil st)
  | cons step rest ih =>
    intro cache outs cache2 hwf h st hst
    simp only [Planner.renderStepsGo] at h
    cases hck : lookupA cache (typeName ++ ":" ++ step.name) with
    | some tmpl =>
      simp only [hck] at h
      cases hex : execSegs ctx tmpl with
      | error e =>
        simp only [hex] at h
        exact Except.noConfusion h
      | ok outl =>
        simp only [hex] at h
        cases hrest : Planner.renderStepsGo ctx typeName rest cache with
        | error e =>
          simp only [hrest] at h
          exact Except.noConfusion h
        | ok pr =>
          obtain ⟨others, cache3⟩ := pr
          simp only [hrest, Except.ok.injEq, Prod.mk.injEq] at h
          obtain ⟨h1, h2⟩ := h
          subst h1
          have hwsegs : segsWF tmpl :=
            hwf (typeName ++ ":" ++ step.name, tmpl) (lookupA_mem _ _ _ hck)
          have hopen := execSegs_no_open ctx hctx tmpl outl hwsegs hex
          rcases List.mem_cons.mp hst with hst1 | hst1
          · rw [hst1]
            exact hasResidualL_of_no_open outl hopen
          · exact ih cache others cache3 hwf hrest st hst1
    | none =>
      simp only [hck] at h
      cases hpt : parseTmpl step.run.toList with
      | none =>
        simp only [hpt] at h
        exact Except.noConfusion h
      | some tmpl =>
        simp only [hpt] at h
        cases hex : execSegs ctx tmpl with
        | error e =>
          simp only [hex] at h
          exact Except.noConfusion h
        | ok outl =>
          simp only [hex] at h
          cases hrest : Planner.renderStepsGo ctx typeName rest
              (insertA cache (typeName ++ ":" ++ step.name) tmpl) with
          | error e =>
            simp only [hrest] at h
            exact Except.noConfusion h
          | ok pr =>
            obtain ⟨others, cache3⟩ := pr
            simp only [hrest, Except.ok.injEq, Prod.mk.injEq] at h
            obtain ⟨h1, h2⟩ := h
            subst h1
            have hwsegs : segsWF tmpl := parseTmpl_wf _ _ hpt
            have hwf2 : ∀ e ∈ insertA cache (typeName ++ ":" ++ step.name) tmpl,
                segsWF e.2 := by
              intro e he
              rcases mem_insertA _ _ _ _ he with h3 | h3
              · rw [h3]
                exact hwsegs
              · exact hwf e h3
            have hopen := execSegs_no_open ctx hctx tmpl outl hwsegs hex
            rcases List.mem_cons.mp hst with hst1 | hst1
            · rw [hst1]
              exact hasResidualL_of_no_open outl hopen
            · exact ih _ others cache3 hwf2 hrest st hst1

/-- Component whose inputs nest a template-bearing string one level down
in a string map. -/
def compCfg : Component :=
  { name := "web", type := "helm", domain := "", enabled := true, path := "",
    inputs := [("cfg", Value.strMap [("inner", "echo \x7b\x7bboom\x7d\x7d")])],
    labels := [], dependsOn := [] }

def intentCfg : Intent := {
  apiVersion := "sourceplane.io/v1"
  kind := "Intent"
  metadata := demoMeta
  groups := []
  environments := [("prod", mkEnv ["web"])]
  components := [compCfg] }

def stepCfg : Step :=
  { name := "run-step", run := "\x7b\x7b.cfg.inner\x7d\x7d", timeout := "", retry := 0,
    onFailure := "" }

def jobCfg : JobSpec :=
  { name := "deploy", description := "", timeout := "", retries := 0, steps := [stepCfg],
    inputs := [], labels := [] }

def infosCfg : AList CompositionInfo :=
  [("helm", { type := "helm", defaultJob := some jobCfg })]

/-- C6, counterexample.  Interpolation touches only top-level string
values: a string nested in a string-map input keeps its
`\x7b\x7bboom\x7d\x7d`, and a step template reading that entry emits a
rendered `run` that still contains the residual match. -/
theorem claim_C6_counterexample_nested_braces :
    ((NormalizeIntent intentCfg).toOption.map (fun n =>
        (Planner.PlanJobs infosCfg (Expand n)).toOption.map (fun jobs =>
          jobs.map (fun kv =>
            kv.2.steps.map (fun st => (st.run, hasResidualL st.run.toList)))))) =
      some (some [[("echo \x7b\x7bboom\x7d\x7d", true)]]) ∧
    ((NormalizeIntent intentCfg).toOption.map (fun n =>
        (Expand n).map (fun kv => (kv.1, kv.2.map (fun inst =>
          lookupA inst.inputs "cfg"))))) =
      some [("prod", [some (Value.strMap [("inner", "echo \x7b\x7bboom\x7d\x7d")])])] ∧
    hasResidualL ("echo \x7b\x7bboom\x7d\x7d".toList) = true := by
  exact ⟨by decide, by decide, by decide⟩

/-- C6, amended.  Two restricted guarantees hold.  Top-level string values
of an expanded instance's merged inputs never keep a residual
`\x7b\x7b...\x7d\x7d` match (the strip-and-trim pass removes them all).
A rendered step's `run` is residual-free whenever every context value
renders without a brace and every cached template is well-formed; with a
brace-bearing nested value (see the counterexample) the guarantee
fails. -/
theorem claim_C6_amended_residual_guarantees :
    (∀ (n : NormalizedIntent) (envName : String) (env : Environment)
        (compName : String) (inst : ComponentInstance) (k s : String),
      expandInstance n envName env compName = some inst →
      lookupA inst.inputs k = some (Value.str s) →
      hasResidualL s.toList = false) ∧
    (∀ (ctx : AList Value) (typeName : String) (steps : List Step)
        (cache : AList (List Seg)) (outs : List RenderedStep)
        (cache2 : AList (List Seg)),
      ctxNoBrace ctx → (∀ e ∈ cache, segsWF e.2) →
      Planner.renderStepsGo ctx typeName steps cache = Except.ok (outs, cache2) →
      ∀ st ∈ outs, hasResidualL st.run.toList = false) :=
  ⟨fun n envName env compName inst k s h hlk =>
      expandInstance_inputs_no_residual n envName env compName inst h k s hlk,
    fun ctx typeName steps cache outs cache2 hctx hwf h =>
      renderStepsGo_no_residual ctx typeName hctx steps cache outs cache2 hwf h⟩

def nC6w : NormalizedIntent := {
  metadata := demoMeta
  groups := []
  environments := [("prod", mkEnv ["web"])]
  components := [("web", compGreet)]
  componentIndex := [("web", compGreet)] }

def instC6w : ComponentInstance := {
  componentName := "web"
  environment := "prod"
  type := "helm"
  domain := ""
  labels := []
  inputs := [("greeting", Value.str "hello prod")]
  policies := []
  dependsOn := []
  enabled := true
  path := "./" }

def ctxC6w : AList Value :=
  [("Component", Value.str "web"), ("Environment", Value.str "prod"),
   ("Type", Value.str "helm")]

def stepC6w : Step :=
  { name := "hello-step", run := "echo \x7b\x7b.Environment\x7d\x7d", timeout := "",
    retry := 0, onFailure := "" }

def rstepC6w : RenderedStep :=
  { name := "hello-step", run := "echo prod", timeout := "", retry := 0, onFailure := "" }

def segsC6w : List Seg :=
  [Seg.lit "echo ".toList, Seg.fld ["Environment"], Seg.lit []]

def cacheC6w : AList (List Seg) := [("helm:hello-step", segsC6w)]

/-- Witness for the amended C6: an instance whose interpolated greeting is
clean, and a brace-free context rendering one step. -/
theorem claim_C6_amended_residual_guarantees_witness :
    hasResidualL ("hello prod".toList) = false ∧
    (∀ st ∈ [rstepC6w], hasResidualL st.run.toList = false) :=
  ⟨claim_C6_amended_residual_guarantees.1 nC6w "prod" (mkEnv ["web"]) "web" instC6w
      "greeting" "hello prod" (by decide) (by decide),
    claim_C6_amended_residual_guarantees.2 ctxC6w "helm" [stepC6w] [] [rstepC6w]
      cacheC6w (by decide) (by intro e he; exact absurd he (List.not_mem_nil e))
      (by decide)⟩

/-- Intent where component `b` declares the same dependency edge on `a`
`k` times. -/
def intentDupK (k : Nat) : Intent := {
  apiVersion := "sourceplane.io/v1"
  kind := "Intent"
  metadata := demoMeta
  groups := []
  environments := [("prod", mkEnv ["a", "b"])]
  components := [mkComp "a" [], mkComp "b" (List.replicate k (depOn "a"))] }

/-- C5, counterexample.  The claim asserts a published job's `dependsOn`
never holds duplicate ids.  With the same edge declared twice, the plan
publishes `b@prod.deploy` with `dependsOn =
[a@prod.deploy, a@prod.deploy]`. -/
theorem claim_C5_counterexample_duplicate_ids :
    (generatePlan (intentDupK 2) [helmDir]
        ["a@prod.deploy", "b@prod.deploy"] ["a@prod.deploy", "b@prod.deploy"]
        ["a@prod.deploy", "b@prod.deploy"]).toOption.map
      (fun p => p.jobs.map (fun j => (j.id, j.dependsOn))) =
      some [("a@prod.deploy", []),
        ("b@prod.deploy", ["a@prod.deploy", "a@prod.deploy"])] ∧
    ¬ (["a@prod.deploy", "a@prod.deploy"] : List String).Nodup := by
  exact ⟨by decide, by decide⟩

def ndepA : Dependency :=
  { component := "a", environment := "__same__", scope := "same-environment",
    condition := "success" }

def rdepA : ResolvedDependency :=
  { componentName := "a", environment := "prod", scope := "same-environment",
    condition := "success" }

def compAn : Component := mkComp "a" []

def compBn (k : Nat) : Component :=
  { name := "b", type := "helm", domain := "", enabled := true, path := "", inputs := [],
    labels := [], dependsOn := (List.replicate k (depOn "a")).map normalizeDependency }

def normDupK (k : Nat) : NormalizedIntent := {
  metadata := demoMeta
  groups := []
  environments := [("prod", mkEnv ["a", "b"])]
  components := [("a", compAn), ("b", compBn k)]
  componentIndex := [("a", compAn), ("b", compBn k)] }

theorem normalize_dupK (k : Nat) : NormalizeIntent (intentDupK k) = Except.ok (normDupK k) := rfl

def instA : ComponentInstance := {
  componentName := "a", environment := "prod", type := "helm", domain := ""
  labels := [], inputs := [], policies := [], dependsOn := [], enabled := true, path := "./" }

def instBr (k : Nat) : ComponentInstance := {
  componentName := "b", environment := "prod", type := "helm", domain := ""
  labels := [], inputs := [], policies := [], dependsOn := resolveDependencies (compBn k) "prod"
  enabled := true, path := "./" }

theorem expand_dupK (k : Nat) : Expand (normDupK k) = [("prod", [instA, instBr k])] := rfl

theorem instBr_deps (k : Nat) : (instBr k).dependsOn = List.replicate k rdepA := by
  show resolveDependencies (compBn k) "prod" = _
  unfold resolveDependencies compBn
  rw [List.map_map, List.map_replicate]
  rfl

def helmInfos : AList CompositionInfo := [("helm", { type := "helm", defaultJob := some helmJob })]

def rstepHi : RenderedStep :=
  { name := "deploy-step", run := "echo hi", timeout := "", retry := 0, onFailure := "" }

def jobBd (d : List String) : JobInstance := {
  id := "b@prod.deploy", name := "deploy", component := "b", environment := "prod"
  composition := "helm", path := "./", steps := [rstepHi], dependsOn := d
  timeout := "", retries := 0, config := [], labels := [] }

def jobA0 : JobInstance := {
  id := "a@prod.deploy", name := "deploy", component := "a", environment := "prod"
  composition := "helm", path := "./", steps := [rstepHi], dependsOn := []
  timeout := "", retries := 0, config := [], labels := [] }

def compToJobsC5 : AList (List String) :=
  [("a@prod", ["a@prod.deploy"]), ("b@prod", ["b@prod.deploy"])]

theorem resolveDepsEdges_dupK (k : Nat) (d : List String) :
    Planner.resolveDepsEdges compToJobsC5 "b@prod" ["b@prod.deploy"] (List.replicate k rdepA)
      [("a@prod.deploy", jobA0), ("b@prod.deploy", jobBd d)] =
      Except.ok [("a@prod.deploy", jobA0),
        ("b@prod.deploy", jobBd (d ++ List.replicate k "a@prod.deploy"))] := by
  induction k generalizing d with
  | zero =>
    show Except.ok _ = _
    rw [List.replicate, List.append_nil]
  | succ k ih =>
    rw [List.replicate_succ]
    have hstep : Planner.resolveDepsEdges compToJobsC5 "b@prod" ["b@prod.deploy"]
        (rdepA :: List.replicate k rdepA) [("a@prod.deploy", jobA0), ("b@prod.deploy", jobBd d)] =
        Planner.resolveDepsEdges compToJobsC5 "b@prod" ["b@prod.deploy"]
        (List.replicate k rdepA)
        [("a@prod.deploy", jobA0), ("b@prod.deploy", jobBd (d ++ ["a@prod.deploy"]))] := rfl
    rw [hstep, ih (d ++ ["a@prod.deploy"]), List.append_assoc, List.singleton_append,
      ← List.replicate_succ]

theorem resolveDepsList_dupK (k : Nat) (X : AList JobInstance)
    (hr : Planner.resolveDepsEdges compToJobsC5 "b@prod" ["b@prod.deploy"]
      ((instBr k).dependsOn) [("a@prod.deploy", jobA0), ("b@prod.deploy", jobBd [])] =
      Except.ok X) :
    Planner.resolveDepsList compToJobsC5 "prod" [instA, instBr k]
      [("a@prod.deploy", jobA0), ("b@prod.deploy", jobBd [])] = Except.ok X := by
  have hshape : Planner.resolveDepsList compToJobsC5 "prod" [instA, instBr k]
      [("a@prod.deploy", jobA0), ("b@prod.deploy", jobBd [])] =
      (match Planner.resolveDepsEdges compToJobsC5 "b@prod" ["b@prod.deploy"]
          ((instBr k).dependsOn) [("a@prod.deploy", jobA0), ("b@prod.deploy", jobBd [])] with
        | Except.error e => Except.error e
        | Except.ok jobs => Planner.resolveDepsList compToJobsC5 "prod" [] jobs) := rfl
  rw [hshape, hr]
  rfl

theorem planJobs_dupK (k : Nat) :
    Planner.PlanJobs helmInfos (Expand (normDupK k)) =
      Except.ok [("a@prod.deploy", jobA0),
        ("b@prod.deploy", jobBd (List.replicate k "a@prod.deploy"))] := by
  have hr : Planner.resolveDepsEdges compToJobsC5 "b@prod" ["b@prod.deploy"]
      ((instBr k).dependsOn) [("a@prod.deploy", jobA0), ("b@prod.deploy", jobBd [])] =
      Except.ok [("a@prod.deploy", jobA0),
        ("b@prod.deploy", jobBd (List.replicate k "a@prod.deploy"))] := by
    rw [instBr_deps]
    have h := resolveDepsEdges_dupK k []
    rw [List.nil_append] at h
    exact h
  have hlist := resolveDepsList_dupK k _ hr
  have hshape : Planner.PlanJobs helmInfos (Expand (normDupK k)) =
      (match Planner.resolveDepsList compToJobsC5 "prod" [instA, instBr k]
          [("a@prod.deploy", jobA0), ("b@prod.deploy", jobBd [])] with
        | Except.error e => Except.error e
        | Except.ok jobs => Except.ok jobs) := rfl
  rw [hshape, hlist]

/-- Published job map of the duplicate-edge intent. -/
def jobsDupK (k : Nat) : AList JobInstance :=
  [("a@prod.deploy", jobA0), ("b@prod.deploy", jobBd (List.replicate k "a@prod.deploy"))]

theorem countEdges_dupK1 (k : Nat) (m : Int) (l : List String) :
    countEdges "b@prod.deploy" (List.replicate k "a@prod.deploy")
      ([("a@prod.deploy", (0:Int)), ("b@prod.deploy", m)],
       [("a@prod.deploy", l), ("b@prod.deploy", ([] : List String))]) =
      ([("a@prod.deploy", (0:Int)), ("b@prod.deploy", m + k)],
       [("a@prod.deploy", l ++ List.replicate k "b@prod.deploy"),
        ("b@prod.deploy", ([] : List String))]) := by
  induction k generalizing m l with
  | zero =>
    show ((_, _) : AList Int × AList (List String)) = _
    rw [List.replicate, List.append_nil]
    norm_num
  | succ k ih =>
    rw [List.replicate_succ]
    have hstep : countEdges "b@prod.deploy"
        ("a@prod.deploy" :: List.replicate k "a@prod.deploy")
        ([("a@prod.deploy", (0:Int)), ("b@prod.deploy", m)],
         [("a@prod.deploy", l), ("b@prod.deploy", ([] : List String))]) =
        countEdges "b@prod.deploy" (List.replicate k "a@prod.deploy")
        ([("a@prod.deploy", (0:Int)), ("b@prod.deploy", m + 1)],
         [("a@prod.deploy", l ++ ["b@prod.deploy"]), ("b@prod.deploy", ([] : List String))]) := rfl
    rw [hstep, ih (m + 1) (l ++ ["b@prod.deploy"])]
    have e1 : m + 1 + (k : Int) = m + ((k + 1 : Nat) : Int) := by push_cast; ring
    have e2 : (l ++ ["b@prod.deploy"]) ++ List.replicate k "b@prod.deploy" =
        l ++ List.replicate (k + 1) "b@prod.deploy" := by
      rw [List.append_assoc, List.singleton_append, ← List.replicate_succ]
    rw [e1, e2]

theorem decrementFold_dupK1 (j : Nat) (q : List String) :
    decrementFold (List.replicate (j + 1) "b@prod.deploy")
      ([("a@prod.deploy", (0:Int)), ("b@prod.deploy", ((j + 1 : Nat) : Int))], q) =
      ([("a@prod.deploy", (0:Int)), ("b@prod.deploy", 0)], q ++ ["b@prod.deploy"]) := by
  induction j generalizing q with
  | zero => rfl
  | succ j ih =>
    rw [List.replicate_succ]
    have hlk : lookupA [("a@prod.deploy", (0:Int)),
        ("b@prod.deploy", ((j + 1 + 1 : Nat) : Int))] "b@prod.deploy" =
        some ((j + 1 + 1 : Nat) : Int) := by simp [lookupA]
    have harith : ((j + 1 + 1 : Nat) : Int) - 1 = ((j + 1 : Nat) : Int) := by push_cast; ring
    show List.foldl _ _ ("b@prod.deploy" :: List.replicate (j + 1) "b@prod.deploy") = _
    rw [List.foldl_cons]
    simp only [hlk, Option.getD_some, harith, insertA]
    simp only [show ¬("a@prod.deploy" = "b@prod.deploy") from by decide, if_false, if_true,
      show ("b@prod.deploy" = "b@prod.deploy") from rfl]
    rw [if_neg (by omega : ¬(((j + 1 : Nat) : Int) = 0))]
    exact ih q

theorem topo_dupK1 (j : Nat) :
    TopologicalSort (jobsDupK (j + 1)) ["a@prod.deploy", "b@prod.deploy"] =
      Except.ok ["a@prod.deploy", "b@prod.deploy"] := by
  have hcount := countEdges_dupK1 (j + 1) 0 []
  rw [List.nil_append] at hcount
  have hzero : (0 : Int) + ((j + 1 : Nat) : Int) = ((j + 1 : Nat) : Int) := by ring
  rw [hzero] at hcount
  have hdec := decrementFold_dupK1 j ([] : List String)
  rw [List.nil_append] at hdec
  have key : TopologicalSort (jobsDupK (j + 1)) ["a@prod.deploy", "b@prod.deploy"] =
      (let st := countEdges "b@prod.deploy" (List.replicate (j + 1) "a@prod.deploy")
        ([("a@prod.deploy", (0:Int)), ("b@prod.deploy", (0:Int))],
         [("a@prod.deploy", ([] : List String)), ("b@prod.deploy", ([] : List String))]);
      let queue := ["a@prod.deploy", "b@prod.deploy"].filter
        (fun id => (lookupA st.1 id).getD 0 = 0);
      let sorted := kahnLoop st.2 3 queue st.1 [];
      if sorted.length ≠ 2 then
        Except.error "failed to topologically sort: possible cycle detected"
      else Except.ok sorted) := rfl
  rw [key, hcount]
  have hqueue : (["a@prod.deploy", "b@prod.deploy"].filter (fun id =>
      (lookupA [("a@prod.deploy", (0:Int)), ("b@prod.deploy", ((j + 1 : Nat) : Int))] id).getD 0
        = 0)) = ["a@prod.deploy"] := by
    have hd : (decide (((j : Int) + 1) = 0)) = false := decide_eq_false (by omega)
    simp [List.filter, lookupA, hd]
  have hkahn : kahnLoop
      [("a@prod.deploy", List.replicate (j + 1) "b@prod.deploy"),
       ("b@prod.deploy", ([] : List String))] 3 ["a@prod.deploy"]
      [("a@prod.deploy", (0:Int)), ("b@prod.deploy", ((j + 1 : Nat) : Int))] [] =
      ["a@prod.deploy", "b@prod.deploy"] := by
    have h1 : kahnLoop
        [("a@prod.deploy", List.replicate (j + 1) "b@prod.deploy"),
         ("b@prod.deploy", ([] : List String))] 3 ["a@prod.deploy"]
        [("a@prod.deploy", (0:Int)), ("b@prod.deploy", ((j + 1 : Nat) : Int))] [] =
        (let st := decrementFold (List.replicate (j + 1) "b@prod.deploy")
          ([("a@prod.deploy", (0:Int)), ("b@prod.deploy", ((j + 1 : Nat) : Int))], []);
        kahnLoop
          [("a@prod.deploy", List.replicate (j + 1) "b@prod.deploy"),
           ("b@prod.deploy", ([] : List String))] 2 st.2 st.1 ["a@prod.deploy"]) := rfl
    rw [h1, hdec]
    rfl
  simp only [hqueue, hkahn]
  rfl

theorem countEdges_dupK2 (k : Nat) (m : Int) (l : List String) :
    countEdges "b@prod.deploy" (List.replicate k "a@prod.deploy")
      ([("b@prod.deploy", m), ("a@prod.deploy", (0:Int))],
       [("b@prod.deploy", ([] : List String)), ("a@prod.deploy", l)]) =
      ([("b@prod.deploy", m + k), ("a@prod.deploy", (0:Int))],
       [("b@prod.deploy", ([] : List String)),
        ("a@prod.deploy", l ++ List.replicate k "b@prod.deploy")]) := by
  induction k generalizing m l with
  | zero =>
    show ((_, _) : AList Int × AList (List String)) = _
    rw [List.replicate, List.append_nil]
    norm_num
  | succ k ih =>
    rw [List.replicate_succ]
    have hstep : countEdges "b@prod.deploy"
        ("a@prod.deploy" :: List.replicate k "a@prod.deploy")
        ([("b@prod.deploy", m), ("a@prod.deploy", (0:Int))],
         [("b@prod.deploy", ([] : List String)), ("a@prod.deploy", l)]) =
        countEdges "b@prod.deploy" (List.replicate k "a@prod.deploy")
        ([("b@prod.deploy", m + 1), ("a@prod.deploy", (0:Int))],
         [("b@prod.deploy", ([] : List String)),
          ("a@prod.deploy", l ++ ["b@prod.deploy"])]) := rfl
    rw [hstep, ih (m + 1) (l ++ ["b@prod.deploy"])]
    have e1 : m + 1 + (k : Int) = m + ((k + 1 : Nat) : Int) := by push_cast; ring
    have e2 : (l ++ ["b@prod.deploy"]) ++ List.replicate k "b@prod.deploy" =
        l ++ List.replicate (k + 1) "b@prod.deploy" := by
      rw [List.append_assoc, List.singleton_append, ← List.replicate_succ]
    rw [e1, e2]

theorem decrementFold_dupK2 (j : Nat) (q : List String) :
    decrementFold (List.replicate (j + 1) "b@prod.deploy")
      ([("b@prod.deploy", ((j + 1 : Nat) : Int)), ("a@prod.deploy", (0:Int))], q) =
      ([("b@prod.deploy", (0:Int)), ("a@prod.deploy", (0:Int))], q ++ ["b@prod.deploy"]) := by
  induction j generalizing q with
  | zero => rfl
  | succ j ih =>
    rw [List.replicate_succ]
    have hlk : lookupA [("b@prod.deploy", ((j + 1 + 1 : Nat) : Int)),
        ("a@prod.deploy", (0:Int))] "b@prod.deploy" =
        some ((j + 1 + 1 : Nat) : Int) := by simp [lookupA]
    have harith : ((j + 1 + 1 : Nat) : Int) - 1 = ((j + 1 : Nat) : Int) := by push_cast; ring
    show List.foldl _ _ ("b@prod.deploy" :: List.replicate (j + 1) "b@prod.deploy") = _
    rw [List.foldl_cons]
    simp only [hlk, Option.getD_some, harith, insertA]
    simp only [show ("b@prod.deploy" = "b@prod.deploy") from rfl, if_true]
    rw [if_neg (by omega : ¬(((j + 1 : Nat) : Int) = 0))]
    exact ih q

theorem topo_dupK2 (j : Nat) :
    TopologicalSort (jobsDupK (j + 1)) ["b@prod.deploy", "a@prod.deploy"] =
      Except.ok ["a@prod.deploy", "b@prod.deploy"] := by
  have hcount := countEdges_dupK2 (j + 1) 0 []
  rw [List.nil_append] at hcount
  have hzero : (0 : Int) + ((j + 1 : Nat) : Int) = ((j + 1 : Nat) : Int) := by ring
  rw [hzero] at hcount
  have hdec := decrementFold_dupK2 j ([] : List String)
  rw [List.nil_append] at hdec
  have key : TopologicalSort (jobsDupK (j + 1)) ["b@prod.deploy", "a@prod.deploy"] =
      (let st := countEdges "b@prod.deploy" (List.replicate (j + 1) "a@prod.deploy")
        ([("b@prod.deploy", (0:Int)), ("a@prod.deploy", (0:Int))],
         [("b@prod.deploy", ([] : List String)), ("a@prod.deploy", ([] : List String))]);
      let queue := ["b@prod.deploy", "a@prod.deploy"].filter
        (fun id => (lookupA st.1 id).getD 0 = 0);
      let sorted := kahnLoop st.2 3 queue st.1 [];
      if sorted.length ≠ 2 then
        Except.error "failed to topologically sort: possible cycle detected"
      else Except.ok sorted) := rfl
  rw [key, hcount]
  have hqueue : (["b@prod.deploy", "a@prod.deploy"].filter (fun id =>
      (lookupA [("b@prod.deploy", ((j + 1 : Nat) : Int)), ("a@prod.deploy", (0:Int))] id).getD 0
        = 0)) = ["a@prod.deploy"] := by
    have hd : (decide (((j : Int) + 1) = 0)) = false := decide_eq_false (by omega)
    simp [List.filter, lookupA, hd]
  have hkahn : kahnLoop
      [("b@prod.deploy", ([] : List String)),
       ("a@prod.deploy", List.replicate (j + 1) "b@prod.deploy")] 3 ["a@prod.deploy"]
      [("b@prod.deploy", ((j + 1 : Nat) : Int)), ("a@prod.deploy", (0:Int))] [] =
      ["a@prod.deploy", "b@prod.deploy"] := by
    have h1 : kahnLoop
        [("b@prod.deploy", ([] : List String)),
         ("a@prod.deploy", List.replicate (j + 1) "b@prod.deploy")] 3 ["a@prod.deploy"]
        [("b@prod.deploy", ((j + 1 : Nat) : Int)), ("a@prod.deploy", (0:Int))] [] =
        (let st := decrementFold (List.replicate (j + 1) "b@prod.deploy")
          ([("b@prod.deploy", ((j + 1 : Nat) : Int)), ("a@prod.deploy", (0:Int))], []);
        kahnLoop
          [("b@prod.deploy", ([] : List String)),
           ("a@prod.deploy", List.replicate (j + 1) "b@prod.deploy")] 2 st.2 st.1
          ["a@prod.deploy"]) := rfl
    rw [h1, hdec]
    rfl
  simp only [hqueue, hkahn]
  rfl

/-- C5, amended.  The planner performs no de-duplication: a component
that declares the same dependency edge `k` times is published with `k`
copies of the target job id, one per declared edge occurrence, and the
topological sort still emits every job exactly once (under either
iteration order of the two-job map) because in-degree is counted and
decremented once per occurrence. -/
theorem claim_C5_amended_no_dedup (k : Nat) (hk : 1 ≤ k) :
    Planner.PlanJobs helmInfos ((NormalizeIntent (intentDupK k)).toOption.elim [] Expand) =
      Except.ok (jobsDupK k) ∧
    (lookupA (jobsDupK k) "b@prod.deploy").map JobInstance.dependsOn =
      some (List.replicate k "a@prod.deploy") ∧
    (∀ order, order = ["a@prod.deploy", "b@prod.deploy"] ∨
        order = ["b@prod.deploy", "a@prod.deploy"] →
      TopologicalSort (jobsDupK k) order = Except.ok ["a@prod.deploy", "b@prod.deploy"]) := by
  obtain ⟨j, rfl⟩ : ∃ j, k = j + 1 := ⟨k - 1, by omega⟩
  refine ⟨planJobs_dupK (j + 1), rfl, ?_⟩
  intro order ho
  cases ho with
  | inl h => subst h; exact topo_dupK1 j
  | inr h => subst h; exact topo_dupK2 j

/-- Witness for the amended C5 at `k = 2`. -/
theorem claim_C5_amended_no_dedup_witness :
    Planner.PlanJobs helmInfos ((NormalizeIntent (intentDupK 2)).toOption.elim [] Expand) =
      Except.ok (jobsDupK 2) ∧
    (lookupA (jobsDupK 2) "b@prod.deploy").map JobInstance.dependsOn =
      some (List.replicate 2 "a@prod.deploy") ∧
    (∀ order, order = ["a@prod.deploy", "b@prod.deploy"] ∨
        order = ["b@prod.deploy", "a@prod.deploy"] →
      TopologicalSort (jobsDupK 2) order = Except.ok ["a@prod.deploy", "b@prod.deploy"]) :=
  claim_C5_amended_no_dedup 2 (by norm_num)

/-- Witness for C10: both steps render to the first step's output even
though the second step's `run` string is `echo two`. -/
theorem claim_C10_cached_template_reused_witness :
    Planner.renderSteps [] [stepC10a, stepC10b] instC10 =
      Except.ok
        ([{ name := "s", run := String.mk "echo one w:1".toList, timeout := "", retry := 0,
            onFailure := "" },
          { name := "s", run := String.mk "echo one w:1".toList, timeout := "", retry := 0,
            onFailure := "" }],
         insertA [] ("helm" ++ ":" ++ "s") tmplC10) :=
  claim_C10_cached_template_reused [] instC10 "s" "echo one \x7b\x7b.image\x7d\x7d" "echo two"
    "" "" "" "" 0 0 tmplC10 "echo one w:1".toList rfl (by decide) (by decide)

end LiteCI
